import Mathlib

/-!
Shallow embedding of `target_gcs` (src/target_gcs/__init__.py): a Singer
target that groups RECORD messages by stream, buffers them in per-stream
temporary files, and uploads batches to Google Cloud Storage.

Python dynamic values are modelled by `PyVal`; Python dicts by insertion
ordered association lists; the file system / GCS side effects by an explicit
list of performed uploads threaded through the state.
-/

set_option maxRecDepth 10000

/-- JSON-like Python value (`json.loads` output): `None`, booleans, integers,
strings, lists and dicts.  Dicts are insertion ordered association lists. -/
inductive PyVal where
  | none : PyVal
  | bool : Bool → PyVal
  | int : Int → PyVal
  | str : String → PyVal
  | list : List PyVal → PyVal
  | dict : List (String × PyVal) → PyVal

/-- `True` iff the value is Python `None`. -/
def PyVal.isNone : PyVal → Bool
  | PyVal.none => true
  | _ => false

mutual

/-- Model of Python `str(v)` / `repr(v)` for JSON-like values (strings without
escapes): `None`, `True`/`False`, decimal integers, `'single quoted'` strings,
`[a, b]` lists and `{'k': v}` dicts. -/
def pyRepr : PyVal → String
  | PyVal.none => "None"
  | PyVal.bool true => "True"
  | PyVal.bool false => "False"
  | PyVal.int n => toString n
  | PyVal.str s => "'" ++ s ++ "'"
  | PyVal.list xs => "[" ++ String.intercalate (", ") (pyReprList xs) ++ "]"
  | PyVal.dict es => "\x7b" ++ String.intercalate (", ") (pyReprEntries es) ++ "\x7d"

/-- `pyRepr` mapped over a list of values. -/
def pyReprList : List PyVal → List String
  | [] => []
  | v :: vs => pyRepr v :: pyReprList vs

/-- `repr(key) + ": " + repr(value)` for each dict entry. -/
def pyReprEntries : List (String × PyVal) → List String
  | [] => []
  | (k, v) :: es => ("'" ++ k ++ "': " ++ pyRepr v) :: pyReprEntries es

end

mutual

/-- Model of Python `json.dumps(v)` with default separators. -/
def dumps : PyVal → String
  | PyVal.none => "null"
  | PyVal.bool true => "true"
  | PyVal.bool false => "false"
  | PyVal.int n => toString n
  | PyVal.str s => "\"" ++ s ++ "\""
  | PyVal.list xs => "[" ++ String.intercalate (", ") (dumpsList xs) ++ "]"
  | PyVal.dict es => "\x7b" ++ String.intercalate (", ") (dumpsEntries es) ++ "\x7d"

/-- `dumps` mapped over a list of values. -/
def dumpsList : List PyVal → List String
  | [] => []
  | v :: vs => dumps v :: dumpsList vs

/-- `dumps(key) + ": " + dumps(value)` for each dict entry. -/
def dumpsEntries : List (String × PyVal) → List String
  | [] => []
  | (k, v) :: es => ("\"" ++ k ++ "\": " ++ dumps v) :: dumpsEntries es

end

/-- Python dict assignment `d[k] = v` on an insertion ordered association
list: overwrite in place when the key exists, append otherwise. -/
def dictInsert (es : List (String × PyVal)) (k : String) (v : PyVal) :
    List (String × PyVal) :=
  if es.any (fun e => e.1 = k) then
    es.map (fun e => if e.1 = k then (k, v) else e)
  else
    es ++ [(k, v)]

/-- Python `dict(items)`: first-occurrence order, later duplicate keys
overwrite the stored value. -/
def dictOfItems (items : List (String × PyVal)) : List (String × PyVal) :=
  items.foldl (fun acc e => dictInsert acc e.1 e.2) []

mutual

/-- The item list built by `flatten(d, parent_key, sep)` before the final
`dict(items)`: nested dicts are recursively flattened under
`parent_key + sep + k` (just `k` when `parent_key` is empty/falsy), list
values are stored as their `str(...)` text, every other value is stored
unchanged. -/
def flattenItems : List (String × PyVal) → String → String → List (String × PyVal)
  | [], _, _ => []
  | (k, v) :: rest, parentKey, sep =>
    let newKey := if parentKey = "" then k else parentKey ++ sep ++ k
    flattenEntry v newKey sep ++ flattenItems rest parentKey sep

/-- The items one value contributes under its (already joined) flat key:
a dict is flattened recursively, a list is stored as its `str(...)` text,
anything else is stored unchanged. -/
def flattenEntry : PyVal → String → String → List (String × PyVal)
  | PyVal.dict sub, newKey, sep => flattenItems sub newKey sep
  | PyVal.list xs, newKey, _ => [(newKey, PyVal.str (pyRepr (PyVal.list xs)))]
  | w, newKey, _ => [(newKey, w)]

end

/-- Model of `flatten(d)` (source `flatten` with its default arguments
`parent_key=""`, `sep="__"`). -/
def flatten (d : List (String × PyVal)) : List (String × PyVal) :=
  dictOfItems (flattenItems d ("") ("__"))

/-- Model of Python `os.path.join` on two components (no drive letters;
a second component starting with `/` wins, an empty or slash-terminated
first component is concatenated directly, otherwise a `/` is inserted). -/
def pathJoin (a b : String) : String :=
  if b.data.head? = some '/' then b
  else if a = "" ∨ a.data.getLast? = some '/' then a ++ b
  else a ++ "/" ++ b

/-- One input message, already decoded from its JSON line.  `Option` fields
record whether the corresponding required key was present in the decoded
object.  `other` is any unknown `type` tag. -/
inductive Msg where
  | record : Option String → List (String × PyVal) → Msg
  | state : PyVal → Msg
  | schema : Option String → PyVal → Option PyVal → Msg
  | other : String → Msg

/-- The exceptions `persist_lines` raises itself. -/
inductive Err where
  | missingStream : Err
  | missingKeyProperties : Err
deriving DecidableEq

/-- Resolved configuration values read at the top of `persist_lines`
(`config["bucket_name"]`, `config.get(...)` with its defaults). -/
structure Config where
  bucket_name : String
  object_path : String
  append_timestamp_folder : Bool
  sync_batch : Nat
  sync_if_stream_changes : Bool

/-- A `Config` with only `bucket_name` set, everything else at the
`config.get` defaults of the source. -/
def defaultConfig (bucket : String) : Config :=
  { bucket_name := bucket
    object_path := ""
    append_timestamp_folder := false
    sync_batch := 1000000
    sync_if_stream_changes := false }

/-- One entry of `stream_config`: the temp file's current content, the
`nb_sync` batch sequence counterers and the `nb_records` counter. -/
structure StreamState where
  buffer : String
  nb_sync : Nat
  nb_records : Nat
deriving DecidableEq

/-- One object upload performed against the storage backend, together with
the stream and batch sequence number it was flushed for. -/
structure Upload where
  bucket : String
  blobName : String
  content : String
  stream : String
  seq : Nat
deriving DecidableEq

/-- `l[k]` with a default, on an insertion ordered association list. -/
def lookupD (l : List (String × StreamState)) (k : String) (d : StreamState) :
    StreamState :=
  match l.find? (fun e => e.1 = k) with
  | some e => e.2
  | Option.none => d

/-- `l[k] = v` for a key already present (no-op otherwise). -/
def updateKey (l : List (String × StreamState)) (k : String) (v : StreamState) :
    List (String × StreamState) :=
  l.map (fun e => if e.1 = k then (k, v) else e)

/-- `k in l` for an association list. -/
def containsKey (l : List (String × StreamState)) (k : String) : Bool :=
  l.any (fun e => e.1 = k)

/-- Mutable state of one `persist_lines` execution. -/
structure RunState where
  streams : List (String × StreamState)
  previous_stream : Option String
  state : PyVal
  schemas : List (String × PyVal)
  validators : List (String × PyVal)
  key_properties : List (String × PyVal)
  uploads : List Upload

/-- The state at the top of `persist_lines`, before any line is read
(`stream_config = {}`, `previous_stream = None`, `state = None`, empty
registries, nothing uploaded yet). -/
def initState : RunState :=
  { streams := []
    previous_stream := Option.none
    state := PyVal.none
    schemas := []
    validators := []
    key_properties := []
    uploads := [] }

/-- Model of `_load_to_gcs`: skip entirely when the (flushed) file is empty;
otherwise record the upload of the file's content under
`os.path.join(object_path, object_name)` and truncate the file.  Returns the
upload log and the new file content.  The `stream`/`seq` arguments only
annotate the recorded upload with the call site's stream and sequence
number (always `object_name = stream ++ "_" ++ seq ++ ".json"`). -/
def load_to_gcs (bucket_name object_path object_name : String)
    (file : String) (uploads : List Upload) (stream : String) (seq : Nat) :
    List Upload × String :=
  let blob_name := pathJoin object_path object_name
  if file = "" then (uploads, file)
  else (uploads ++ [⟨bucket_name, blob_name, file, stream, seq⟩], "")

/-- Reason a flush was triggered while processing a RECORD. -/
inductive FlushReason where
  | batchSize : FlushReason
  | streamChange : FlushReason
deriving DecidableEq

/-- The flush decision of lines 144–152: the combined condition
`nb_records % sync_batch == 0 or (previous_stream != stream and
sync_if_stream_changes)`, then the inner `if` choosing the current stream
(batch size reached) or the previous stream (stream changed). -/
def flushDecision (sync_batch : Nat) (sync_if_stream_changes : Bool)
    (nb_records : Nat) (previous_stream stream : String) :
    Option (String × FlushReason) :=
  if nb_records % sync_batch = 0 ∨
      (previous_stream ≠ stream ∧ sync_if_stream_changes) then
    if nb_records % sync_batch = 0 then some (stream, FlushReason.batchSize)
    else some (previous_stream, FlushReason.streamChange)
  else Option.none

/-- The object path of a flush for `stream`:
`os.path.join(object_path, stream, now)` when `append_timestamp_folder` is
set, `os.path.join(object_path, stream)` otherwise. -/
def streamObjectPath (cfg : Config) (now stream : String) : String :=
  if cfg.append_timestamp_folder then
    pathJoin (pathJoin cfg.object_path stream) now
  else pathJoin cfg.object_path stream

/-- `"\x7b\x7d_\x7b\x7d.json".format(stream, seq)`. -/
def objName (stream : String) (seq : Nat) : String :=
  stream ++ "_" ++ toString seq ++ ".json"

/-- A fresh `stream_config` entry (open temp file, `nb_sync = 1`,
`nb_records = 0`). -/
def freshStream : StreamState :=
  { buffer := "", nb_sync := 1, nb_records := 0 }

/-- The flush decision evaluated while processing a RECORD for `stream`:
`previous_stream` defaulted to the current stream when still `None`
(lines 123–124), record count of the current stream after the append. -/
def recordDecision (cfg : Config) (rs : RunState) (stream : String) :
    Option (String × FlushReason) :=
  let prev := rs.previous_stream.getD stream
  let cnt := (lookupD rs.streams stream freshStream).nb_records + 1
  flushDecision cfg.sync_batch cfg.sync_if_stream_changes cnt prev stream

/-- `stream_config` after the lazy creation of lines 130–134: unchanged
when the stream already has an entry, otherwise a fresh entry is added. -/
def streamsWithEntry (l : List (String × StreamState)) (s : String) :
    List (String × StreamState) :=
  if containsKey l s then l else l ++ [(s, freshStream)]

/-- `stream_config` after the append of lines 136–141: the current
stream's entry (lazily created if needed) gets `str(flattened) + "\n"`
appended to its file and its record count incremented. -/
def streamsAfterAppend (rs : RunState) (stream : String)
    (rec : List (String × PyVal)) : List (String × StreamState) :=
  let streams0 := streamsWithEntry rs.streams stream
  let ss0 := lookupD streams0 stream freshStream
  updateKey streams0 stream
    { ss0 with
      buffer := ss0.buffer ++ pyRepr (PyVal.dict (flatten rec)) ++ "\n"
      nb_records := ss0.nb_records + 1 }

/-- The interim flush of lines 154–162: `_load_to_gcs` for stream `fs` at
its current `nb_sync`, then `nb_sync` incremented — unconditionally, even
when the upload was skipped because the buffer was empty. -/
def flushStream (cfg : Config) (now : String)
    (streams : List (String × StreamState)) (uploads : List Upload)
    (fs : String) : List (String × StreamState) × List Upload :=
  let fss := lookupD streams fs freshStream
  let (ups, buf) :=
    load_to_gcs cfg.bucket_name (streamObjectPath cfg now fs)
      (objName fs fss.nb_sync) fss.buffer uploads fs fss.nb_sync
  (updateKey streams fs { fss with buffer := buf, nb_sync := fss.nb_sync + 1 },
   ups)

/-- Processing of one RECORD message with stream name `stream` and payload
`rec` (lines 117–165): default `previous_stream`, flatten the payload,
lazily create the `stream_config` entry, append `str(flattened) + "\n"` to
the stream's file, increment its record count, evaluate the flush decision
and flush the selected stream (incrementing its `nb_sync`), then set
`previous_stream` to the current stream and `state` to `None`. -/
def recordStep (cfg : Config) (now : String) (rs : RunState) (stream : String)
    (rec : List (String × PyVal)) : RunState :=
  let streams1 := streamsAfterAppend rs stream rec
  let (streams2, uploads2) :=
    match recordDecision cfg rs stream with
    | some (fs, _) => flushStream cfg now streams1 rs.uploads fs
    | Option.none => (streams1, rs.uploads)
  { rs with
    streams := streams2
    previous_stream := some stream
    state := PyVal.none
    uploads := uploads2 }

/-- Processing of one decoded message (the `if/elif` chain on `o["type"]`).
A RECORD or SCHEMA without a `stream` key and a SCHEMA without
`key_properties` raise; STATE stores the value; unknown types are ignored
with a warning. -/
def step (cfg : Config) (now : String) (rs : RunState) : Msg → Except Err RunState
  | Msg.record Option.none _ => Except.error Err.missingStream
  | Msg.record (some s) rec => Except.ok (recordStep cfg now rs s rec)
  | Msg.state v => Except.ok { rs with state := v }
  | Msg.schema Option.none _ _ => Except.error Err.missingStream
  | Msg.schema (some _) _ Option.none => Except.error Err.missingKeyProperties
  | Msg.schema (some s) sd (some kp) =>
    Except.ok { rs with
      schemas := dictInsert rs.schemas s sd
      validators := dictInsert rs.validators s sd
      key_properties := dictInsert rs.key_properties s kp }
  | Msg.other _ => Except.ok rs

/-- The message loop of `persist_lines`. -/
def go (cfg : Config) (now : String) : RunState → List Msg → Except Err RunState
  | rs, [] => Except.ok rs
  | rs, m :: rest =>
    match step cfg now rs m with
    | Except.ok rs' => go cfg now rs' rest
    | Except.error e => Except.error e

/-- End-of-input flush loop (lines 186–193): every `stream_config` entry is
flushed at its current `nb_sync` (no increment); `_load_to_gcs` skips the
streams whose file is empty.  Returns the final entries and upload log. -/
def finalFlushLoop (cfg : Config) (now : String) :
    List (String × StreamState) → List Upload →
    List (String × StreamState) × List Upload
  | [], ups => ([], ups)
  | (s, ss) :: rest, ups =>
    let (ups', buf') :=
      load_to_gcs cfg.bucket_name (streamObjectPath cfg now s)
        (objName s ss.nb_sync) ss.buffer ups s ss.nb_sync
    let (rest', ups2) := finalFlushLoop cfg now rest ups'
    ((s, { ss with buffer := buf' }) :: rest', ups2)

/-- Observable outcome of a successful `persist_lines` run: the returned
`state`, the uploads performed, and the final `stream_config`. -/
structure RunResult where
  state : PyVal
  uploads : List Upload
  streams : List (String × StreamState)

/-- Model of `persist_lines(config, lines)` over already decoded messages:
run the message loop from the initial state, then the end-of-input flush
loop.  `now` is the run's fixed start timestamp string. -/
def persistLines (cfg : Config) (now : String) (msgs : List Msg) :
    Except Err RunResult :=
  match go cfg now initState msgs with
  | Except.error e => Except.error e
  | Except.ok rs =>
    let (streams', ups) := finalFlushLoop cfg now rs.streams rs.uploads
    Except.ok ⟨rs.state, ups, streams'⟩

/-- Model of `main`'s `emit_state(persist_lines(...))`: the single line
written to stdout (without its trailing newline), `none` when the returned
state is Python `None`. -/
def emittedLine (res : RunResult) : Option String :=
  if res.state.isNone then Option.none else some (dumps res.state)

/-- The uploads recorded for one stream. -/
def uploadsFor (ups : List Upload) (s : String) : List Upload :=
  ups.filter (fun u => u.stream = s)

/-! ## Spec-side definitions (used to state the claims) -/

/-- The Flush Trigger decision as the spec words it: if the appended
stream's record count is a multiple of `syncBatchSize`, flush the current
stream (batch size reached); else if flush-on-stream-change is enabled and
the current stream differs from the previous one, flush the previous
stream (stream boundary crossed); else no flush.  Batch size wins ties. -/
def specFlushDecision (syncBatchSize : Nat) (flushOnStreamChange : Bool)
    (recordCount : Nat) (previous current : String) :
    Option (String × FlushReason) :=
  if syncBatchSize ∣ recordCount then some (current, FlushReason.batchSize)
  else if flushOnStreamChange ∧ previous ≠ current then
    some (previous, FlushReason.streamChange)
  else Option.none

/-- Scanning a reversed message list: the value of the first STATE message
found before any RECORD message is found. -/
def lastStateSince : List Msg → Option PyVal
  | [] => Option.none
  | Msg.state v :: _ => some v
  | Msg.record _ _ :: _ => Option.none
  | _ :: rest => lastStateSince rest

/-- The value of the last STATE message occurring strictly after the last
RECORD message of the input, if any. -/
def lastStateAfterLastRecord (msgs : List Msg) : Option PyVal :=
  lastStateSince msgs.reverse

/-- `True` iff the message is a RECORD. -/
def isRecordB : Msg → Bool
  | Msg.record _ _ => true
  | _ => false

/-- `True` iff the message is a RECORD whose `stream` key is `s`. -/
def isRecordForB (s : String) : Msg → Bool
  | Msg.record (some t) _ => t = s
  | _ => false

/-- How one message updates the `state` variable of `persist_lines`:
a RECORD resets it to `None`, a STATE overwrites it, everything else
leaves it alone. -/
def stateUpd (st : PyVal) : Msg → PyVal
  | Msg.record _ _ => PyVal.none
  | Msg.state v => v
  | _ => st

/-- The `state` variable after a message sequence, starting from `st0`. -/
def stateAfter (st0 : PyVal) (msgs : List Msg) : PyVal :=
  msgs.foldl stateUpd st0

/-- `nb_sync` of a stream in the run state (`1`, the initial counter value,
when the stream has no entry yet). -/
def nbSyncOf (rs : RunState) (s : String) : Nat :=
  (lookupD rs.streams s freshStream).nb_sync

/-- `True` iff the char list contains two consecutive underscores. -/
def hasSep : List Char → Bool
  | [] => false
  | [_] => false
  | c1 :: c2 :: rest => (c1 = '_' && c2 = '_') || hasSep (c2 :: rest)

/-- Model of Python `key.split("__")` on the underlying characters:
greedy left-to-right scan for non-overlapping `__` occurrences, `acc`
holding the (reversed) chars of the current part. -/
def splitSepChars : List Char → List Char → List (List Char)
  | [], acc => [acc.reverse]
  | [c], acc => [(c :: acc).reverse]
  | c1 :: c2 :: rest, acc =>
    if c1 = '_' ∧ c2 = '_' then acc.reverse :: splitSepChars rest []
    else splitSepChars (c2 :: rest) (c1 :: acc)

/-- Model of Python `key.split("__")`. -/
def splitSep (s : String) : List String :=
  (splitSepChars s.data []).map String.mk

/-- The flat key the flattener assigns to a nesting path: the components
joined with the separator `__`. -/
def joinPath : List String → String
  | [] => ""
  | [k] => k
  | k :: ks => k ++ "__" ++ joinPath ks

/-- A dict key that interacts safely with the `__` separator: nonempty,
contains no `__`, and does not end with `_`. -/
def safeKeyB (s : String) : Bool :=
  !(s.data.isEmpty) && !(hasSep s.data) && !(s.data.getLast? == some '_')

mutual

/-- All keys at every nesting level are separator-safe and the keys of each
dict level are pairwise distinct (as Python dict keys always are). -/
def safeDictB : List (String × PyVal) → Bool
  | [] => true
  | (k, v) :: rest =>
    safeKeyB k && !(rest.any (fun e => e.1 == k)) && safeValB v && safeDictB rest

/-- `safeDictB` under one value: constrains dict values, everything else is
safe. -/
def safeValB : PyVal → Bool
  | PyVal.dict sub => safeDictB sub
  | _ => true

end

mutual

/-- The leaves of a nested record: for each entry, a leaf (non-dict) value
is reported under path `pref ++ [k]`, a dict value is searched
recursively. -/
def leafPaths : List (String × PyVal) → List String → List (List String × PyVal)
  | [], _ => []
  | (k, v) :: rest, pref => leafPathsEntry v (pref ++ [k]) ++ leafPaths rest pref

/-- The leaves contributed by one value at path `p`. -/
def leafPathsEntry : PyVal → List String → List (List String × PyVal)
  | PyVal.dict sub, p => leafPaths sub p
  | w, p => [(p, w)]

end

/-- How `flatten` stores one leaf value: lists become their `str(...)`
text, every other scalar passes through unchanged. -/
def convLeaf : PyVal → PyVal
  | PyVal.list xs => PyVal.str (pyRepr (PyVal.list xs))
  | w => w

/-! ## Concrete inputs used by counterexamples and witnesses -/

/-- A one-field record payload. -/
def recSimple : List (String × PyVal) := [("x", PyVal.int 1)]

/-- Configuration with `sync_batch = 3`. -/
def cfgBatch3 : Config :=
  { defaultConfig ("b") with sync_batch := 3 }

/-- Three RECORD messages for stream `A`, no STATE in between. -/
def msgsThreeA : List Msg :=
  [Msg.record (some ("A")) recSimple,
   Msg.record (some ("A")) recSimple,
   Msg.record (some ("A")) recSimple]

/-- Configuration with `sync_batch = 2` and `sync_if_stream_changes`. -/
def cfgStreamChange : Config :=
  { defaultConfig ("b") with sync_batch := 2, sync_if_stream_changes := true }

/-- RECORD(A), RECORD(A), RECORD(B). -/
def msgsAAB : List Msg :=
  [Msg.record (some ("A")) recSimple,
   Msg.record (some ("A")) recSimple,
   Msg.record (some ("B")) recSimple]

/-- The end-to-end record payload `{"id": 1, "name": "a"}`. -/
def recUsers : List (String × PyVal) :=
  [("id", PyVal.int 1), ("name", PyVal.str ("a"))]

/-- A JSON schema declaring `id` as an integer field. -/
def schemaUsers : PyVal :=
  PyVal.dict
    [("type", PyVal.str ("object")),
     ("properties", PyVal.dict [("id", PyVal.dict [("type", PyVal.str ("integer"))])])]

/-- `SCHEMA(users)`, `RECORD(users, {"id":1,"name":"a"})`,
`STATE({"bookmark":1})`. -/
def msgsEndToEnd : List Msg :=
  [Msg.schema (some ("users")) schemaUsers (some (PyVal.list [PyVal.str ("id")])),
   Msg.record (some ("users")) recUsers,
   Msg.state (PyVal.dict [("bookmark", PyVal.int 1)])]

/-- A SCHEMA for stream `other` followed by a RECORD for stream `users`,
which never received a SCHEMA. -/
def msgsNoSchemaRecord : List Msg :=
  [Msg.schema (some ("other")) schemaUsers (some (PyVal.list [PyVal.str ("id")])),
   Msg.record (some ("users")) recUsers]

/-- A record payload whose `id` is a string, violating `schemaUsers`. -/
def recInvalid : List (String × PyVal) :=
  [("id", PyVal.str ("notanint"))]

/-- `SCHEMA(users)` then a RECORD that does not conform to it. -/
def msgsInvalidRecord : List Msg :=
  [Msg.schema (some ("users")) schemaUsers (some (PyVal.list [PyVal.str ("id")])),
   Msg.record (some ("users")) recInvalid]

/-- A nested input whose flat keys collide: the leaf at path `a.b` and the
top-level key `a__b` both flatten to the key `a__b`. -/
def dexCollide : List (String × PyVal) :=
  [("a", PyVal.dict [("b", PyVal.int 1)]), ("a__b", PyVal.int 2)]

/-- A separator-safe nested input with one nested leaf and one list leaf. -/
def dSafe : List (String × PyVal) :=
  [("a", PyVal.dict [("b", PyVal.int 1)]), ("c", PyVal.list [PyVal.int 2, PyVal.str ("z")])]

/-- The C8 run invariant for a stream `s` that never receives a RECORD:
no `stream_config` entry, not the previous stream, no uploads. -/
def noTouch (s : String) (rs : RunState) : Prop :=
  (∀ e ∈ rs.streams, e.1 ≠ s) ∧ rs.previous_stream ≠ some s ∧
    uploadsFor rs.uploads s = []

/-- The C4 run invariant: `stream_config` keys are distinct, every
sequence counter is at least 1, and for every stream the recorded uploads
carry strictly increasing sequence numbers that are at least 1 and below
the stream's current counter. -/
structure SeqInv (rs : RunState) : Prop where
  nodup : (rs.streams.map Prod.fst).Nodup
  syncGE : ∀ e ∈ rs.streams, 1 ≤ e.2.nb_sync
  pw : ∀ s, ((uploadsFor rs.uploads s).map Upload.seq).Pairwise (· < ·)
  seqGE : ∀ u ∈ rs.uploads, 1 ≤ u.seq
  bound : ∀ u ∈ rs.uploads, u.seq < nbSyncOf rs u.stream

/-- Character-level form of `joinPath`: path components (as char lists)
joined with the two-underscore separator. -/
def joinChars : List (List Char) → List Char
  | [] => []
  | [p] => p
  | p :: ps => p ++ '_' :: '_' :: joinChars ps

/-! ## Claims -/

/-- C1: the spec claims a RECORD for a stream with no prior SCHEMA always
fails fatally (UnknownStream), regardless of how many other streams have
schemas.  The code has no such check: with a SCHEMA registered only for
stream `other`, a RECORD for stream `users` is flattened, buffered and
uploaded, and the run returns normally. -/
theorem C1_record_without_schema_is_accepted :
    persistLines (defaultConfig ("b")) ("t") msgsNoSchemaRecord =
      Except.ok
        ⟨PyVal.none,
         [⟨"b", "users/users_1.json", "\x7b'id': 1, 'name': 'a'\x7d\n", "users", 1⟩],
         [("users", ⟨"", 1, 1⟩)]⟩ := rfl

/-- C2: the spec claims every RECORD is validated against its stream's
schema and a failing record aborts the run.  The code builds the validator
registry but never consults it: a record violating the registered schema
(`id` a string where the schema requires an integer) is appended and
uploaded, and the run returns normally. -/
theorem C2_invalid_record_is_accepted_without_validation :
    persistLines (defaultConfig ("b")) ("t") msgsInvalidRecord =
      Except.ok
        ⟨PyVal.none,
         [⟨"b", "users/users_1.json", "\x7b'id': 'notanint'\x7d\n", "users", 1⟩],
         [("users", ⟨"", 1, 1⟩)]⟩ := rfl

/-- C3 counterexample: with `sync_batch = 3` and three RECORDs for `A`, the
claim says the in-memory record count of `A` is reset to 0 after the flush;
in fact it stays at 3 (`nb_records` is never reset). -/
theorem C3_counterexample :
    ¬ ((persistLines cfgBatch3 ("t") msgsThreeA).map
        (fun r => (lookupD r.streams ("A") freshStream).nb_records) =
      Except.ok 0) := by
  intro h
  have h' : (Except.ok 3 : Except Err Nat) = Except.ok 0 := h
  have h2 : (3 : Nat) = 0 := Except.ok.inj h'
  exact absurd h2 (by decide)

/-- C3 amended: with `sync_batch = 3` and three RECORDs for `A`, exactly
one flush occurs, the uploaded object is named with batch sequence 1
(`A_1.json`), the buffer is emptied, but the in-memory record count stays
at 3 (the batch trigger works by `nb_records % sync_batch`, not by
resetting the count). -/
theorem C3_amended_one_flush_seq1_count_not_reset :
    persistLines cfgBatch3 ("t") msgsThreeA =
      Except.ok
        ⟨PyVal.none,
         [⟨"b", "A/A_1.json", "\x7b'x': 1\x7d\n\x7b'x': 1\x7d\n\x7b'x': 1\x7d\n", "A", 1⟩],
         [("A", ⟨"", 2, 3⟩)]⟩ := rfl

/-- C6 counterexample: in the end-to-end run the claim says the uploaded
object contains the JSON line `{"id": 1, "name": "a"}`; the code writes
`str(flattened_record)`, i.e. the Python repr `{'id': 1, 'name': 'a'}`
with single quotes, which is not that JSON line. -/
theorem C6_counterexample :
    ¬ ((persistLines (defaultConfig ("b")) ("t") msgsEndToEnd).map
        (fun r => r.uploads.map (fun u => u.content)) =
      Except.ok (["\x7b\"id\": 1, \"name\": \"a\"\x7d\n"])) := by
  intro h
  have h' : (Except.ok (["\x7b'id': 1, 'name': 'a'\x7d\n"]) : Except Err (List String)) =
      Except.ok (["\x7b\"id\": 1, \"name\": \"a\"\x7d\n"]) := h
  have h2 := Except.ok.inj h'
  exact absurd h2 (by decide)

/-- C6 amended: the end-to-end input produces exactly one storage object
`users/users_1.json` whose content is the single line
`{'id': 1, 'name': 'a'}` (Python `str()` of the flattened dict, not JSON),
and the single output line `{"bookmark": 1}` is emitted. -/
theorem C6_amended_end_to_end :
    persistLines (defaultConfig ("b")) ("t") msgsEndToEnd =
      Except.ok
        ⟨PyVal.dict [("bookmark", PyVal.int 1)],
         [⟨"b", "users/users_1.json", "\x7b'id': 1, 'name': 'a'\x7d\n", "users", 1⟩],
         [("users", ⟨"", 1, 1⟩)]⟩ ∧
    (persistLines (defaultConfig ("b")) ("t") msgsEndToEnd).map emittedLine =
      Except.ok (some ("\x7b\"bookmark\": 1\x7d")) :=
  ⟨rfl, rfl⟩


/-! ## Helper lemmas about the model -/

/-- `n % k = 0` is exactly divisibility, including `k = 0`. -/
theorem mod_eq_zero_iff_dvd_nat (n k : Nat) : n % k = 0 ↔ k ∣ n :=
  ⟨Nat.dvd_of_mod_eq_zero, fun h => by
    obtain ⟨c, rfl⟩ := h
    exact Nat.mul_mod_right k c⟩

/-- The upload log produced by an interim flush: unchanged for an empty
buffer, otherwise extended by the flushed object. -/
theorem flushStream_snd (cfg : Config) (now : String)
    (streams : List (String × StreamState)) (ups : List Upload) (fs : String) :
    (flushStream cfg now streams ups fs).2 =
      if (lookupD streams fs freshStream).buffer = "" then ups
      else ups ++
        [⟨cfg.bucket_name,
          pathJoin (streamObjectPath cfg now fs)
            (objName fs (lookupD streams fs freshStream).nb_sync),
          (lookupD streams fs freshStream).buffer, fs,
          (lookupD streams fs freshStream).nb_sync⟩] := by
  unfold flushStream load_to_gcs
  by_cases h : (lookupD streams fs freshStream).buffer = "" <;> simp [h]

/-- The `stream_config` produced by an interim flush: the flushed stream's
entry gets an empty buffer and an incremented `nb_sync`, whether or not
anything was uploaded. -/
theorem flushStream_fst (cfg : Config) (now : String)
    (streams : List (String × StreamState)) (ups : List Upload) (fs : String) :
    (flushStream cfg now streams ups fs).1 =
      updateKey streams fs
        ⟨"", (lookupD streams fs freshStream).nb_sync + 1,
         (lookupD streams fs freshStream).nb_records⟩ := by
  unfold flushStream load_to_gcs
  by_cases h : (lookupD streams fs freshStream).buffer = "" <;> simp [h]

/-- The upload log of a RECORD step when no flush is decided. -/
theorem recordStep_uploads_none {cfg : Config} {now : String} {rs : RunState}
    {s : String} {rec : List (String × PyVal)}
    (hdec : recordDecision cfg rs s = Option.none) :
    (recordStep cfg now rs s rec).uploads = rs.uploads := by
  unfold recordStep
  rw [hdec]

/-- The upload log of a RECORD step when a flush of `fs` is decided. -/
theorem recordStep_uploads_some {cfg : Config} {now : String} {rs : RunState}
    {s : String} {rec : List (String × PyVal)} {fs : String} {r : FlushReason}
    (hdec : recordDecision cfg rs s = some (fs, r)) :
    (recordStep cfg now rs s rec).uploads =
      (flushStream cfg now (streamsAfterAppend rs s rec) rs.uploads fs).2 := by
  unfold recordStep
  rw [hdec]

/-- The `stream_config` of a RECORD step when no flush is decided. -/
theorem recordStep_streams_none {cfg : Config} {now : String} {rs : RunState}
    {s : String} {rec : List (String × PyVal)}
    (hdec : recordDecision cfg rs s = Option.none) :
    (recordStep cfg now rs s rec).streams = streamsAfterAppend rs s rec := by
  unfold recordStep
  rw [hdec]

/-- The `stream_config` of a RECORD step when a flush of `fs` is decided. -/
theorem recordStep_streams_some {cfg : Config} {now : String} {rs : RunState}
    {s : String} {rec : List (String × PyVal)} {fs : String} {r : FlushReason}
    (hdec : recordDecision cfg rs s = some (fs, r)) :
    (recordStep cfg now rs s rec).streams =
      (flushStream cfg now (streamsAfterAppend rs s rec) rs.uploads fs).1 := by
  unfold recordStep
  rw [hdec]

/-! ## Claims (continued) -/

/-- C5: per incoming RECORD exactly one flush decision is evaluated, and
it follows the spec's policy: flush the current stream when the appended
stream's record count is a multiple of `sync_batch`; otherwise flush the
previous stream when `sync_if_stream_changes` is set and the stream
changed; otherwise nothing — with the batch-size trigger winning ties.
Moreover one RECORD step performs at most one upload. -/
theorem C5_flush_decision_policy :
    (∀ sb sc cnt prev cur,
      flushDecision sb sc cnt prev cur = specFlushDecision sb sc cnt prev cur) ∧
    (∀ cfg now rs s rec,
      (recordStep cfg now rs s rec).uploads.length ≤ rs.uploads.length + 1) := by
  constructor
  · intro sb sc cnt prev cur
    unfold flushDecision specFlushDecision
    by_cases h : cnt % sb = 0
    · have hd : sb ∣ cnt := (mod_eq_zero_iff_dvd_nat cnt sb).mp h
      simp [h, hd]
    · have hd : ¬ sb ∣ cnt := fun hdvd => h ((mod_eq_zero_iff_dvd_nat cnt sb).mpr hdvd)
      simp [h, hd, and_comm]
  · intro cfg now rs s rec
    cases hdec : recordDecision cfg rs s with
    | none =>
      rw [recordStep_uploads_none hdec]
      simp
    | some p =>
      obtain ⟨fs, r⟩ := p
      rw [recordStep_uploads_some hdec, flushStream_snd]
      split
      · simp
      · simp

/-- C10: while `previous_stream` is still `None` (in particular on the
first RECORD of a run), the stream-change trigger cannot fire: the flush
decision is either no flush or a batch-size flush of the current stream
itself, and any upload a RECORD step performs in that situation is for the
current stream. -/
theorem C10_first_record_never_stream_change :
    ∀ cfg rs s, rs.previous_stream = Option.none →
      (recordDecision cfg rs s = Option.none ∨
        recordDecision cfg rs s = some (s, FlushReason.batchSize)) ∧
      (∀ now rec u, u ∈ (recordStep cfg now rs s rec).uploads →
        u ∈ rs.uploads ∨ u.stream = s) := by
  intro cfg rs s h
  have hdec : recordDecision cfg rs s = Option.none ∨
      recordDecision cfg rs s = some (s, FlushReason.batchSize) := by
    unfold recordDecision flushDecision
    rw [h]
    by_cases hm :
        ((lookupD rs.streams s freshStream).nb_records + 1) % cfg.sync_batch = 0 <;>
      simp [hm]
  refine ⟨hdec, ?_⟩
  intro now rec u hu
  rcases hdec with hd | hd
  · rw [recordStep_uploads_none hd] at hu
    exact Or.inl hu
  · rw [recordStep_uploads_some hd, flushStream_snd] at hu
    split at hu
    · exact Or.inl hu
    · rcases List.mem_append.mp hu with hu | hu
      · exact Or.inl hu
      · rcases List.mem_singleton.mp hu with rfl
        exact Or.inr rfl

/-- C10 witness: in the initial state (previous stream `None`), with the
default configuration, the decision for a first RECORD of stream `A` is a
non-flush or a batch flush of `A` itself. -/
theorem C10_witness :
    initState.previous_stream = Option.none ∧
    (recordDecision (defaultConfig ("b")) initState ("A") = Option.none ∨
      recordDecision (defaultConfig ("b")) initState ("A") =
        some (("A"), FlushReason.batchSize)) :=
  ⟨rfl, (C10_first_record_never_stream_change (defaultConfig ("b")) initState ("A") rfl).1⟩

/-- The `state` component of a RECORD step is always reset to `None`. -/
theorem recordStep_state (cfg : Config) (now : String) (rs : RunState)
    (s : String) (rec : List (String × PyVal)) :
    (recordStep cfg now rs s rec).state = PyVal.none := by
  unfold recordStep
  cases recordDecision cfg rs s with
  | none => rfl
  | some p =>
    obtain ⟨fs, r⟩ := p
    rfl

/-- One message updates the `state` variable exactly as `stateUpd` says. -/
theorem step_state {cfg : Config} {now : String} {rs rs' : RunState} {m : Msg}
    (h : step cfg now rs m = Except.ok rs') : rs'.state = stateUpd rs.state m := by
  cases m with
  | record os rec =>
    cases os with
    | none => exact absurd h (by simp [step])
    | some s =>
      have h2 : recordStep cfg now rs s rec = rs' := Except.ok.inj h
      rw [← h2]
      exact recordStep_state cfg now rs s rec
  | state v =>
    have h2 := Except.ok.inj h
    rw [← h2]
    rfl
  | schema os sd kp =>
    cases os with
    | none => exact absurd h (by simp [step])
    | some s =>
      cases kp with
      | none => exact absurd h (by simp [step])
      | some kpv =>
        have h2 := Except.ok.inj h
        rw [← h2]
        rfl
  | other t =>
    have h2 := Except.ok.inj h
    rw [← h2]
    rfl

/-- Through the whole message loop, `state` follows the `stateUpd` fold. -/
theorem go_state {cfg : Config} {now : String} :
    ∀ {msgs : List Msg} {rs rs' : RunState},
      go cfg now rs msgs = Except.ok rs' →
      rs'.state = stateAfter rs.state msgs := by
  intro msgs
  induction msgs with
  | nil =>
    intro rs rs' h
    have h2 : rs = rs' := Except.ok.inj h
    rw [← h2]
    rfl
  | cons m rest ih =>
    intro rs rs' h
    rw [go] at h
    cases hstep : step cfg now rs m with
    | error e => rw [hstep] at h; exact absurd h (by simp)
    | ok rs1 =>
      rw [hstep] at h
      have h3 := ih h
      rw [h3, step_state hstep]
      rfl

/-- `persist_lines` returns the `stateUpd` fold of the input. -/
theorem persistLines_state {cfg : Config} {now : String} {msgs : List Msg}
    {res : RunResult} (h : persistLines cfg now msgs = Except.ok res) :
    res.state = stateAfter PyVal.none msgs := by
  unfold persistLines at h
  cases hgo : go cfg now initState msgs with
  | error e => rw [hgo] at h; exact absurd h (by simp)
  | ok rs =>
    rw [hgo] at h
    have h2 := Except.ok.inj h
    rw [← h2]
    exact go_state hgo

/-- The `stateUpd` fold equals: the last STATE value after the last RECORD
when there is one; otherwise `None` if any RECORD occurred, else the
initial value. -/
theorem stateAfter_eq (st0 : PyVal) (msgs : List Msg) :
    stateAfter st0 msgs =
      match lastStateSince msgs.reverse with
      | some v => v
      | Option.none => if msgs.any isRecordB then PyVal.none else st0 := by
  induction msgs using List.reverseRecOn with
  | nil => rfl
  | append_singleton ms m ih =>
    have hfold : stateAfter st0 (ms ++ [m]) = stateUpd (stateAfter st0 ms) m := by
      unfold stateAfter
      rw [List.foldl_append]
      rfl
    rw [hfold, List.reverse_append]
    cases m with
    | record os rec => simp [stateUpd, lastStateSince, isRecordB]
    | state v => simp [stateUpd, lastStateSince]
    | schema os sd kp =>
      simp only [List.reverse_singleton, List.singleton_append, lastStateSince,
        List.any_append, stateUpd]
      rw [ih]
      simp [isRecordB]
    | other t =>
      simp only [List.reverse_singleton, List.singleton_append, lastStateSince,
        List.any_append, stateUpd]
      rw [ih]
      simp [isRecordB]

/-- C7 counterexample: for the input consisting of the single message
`STATE(value=null)`, the last STATE after the last RECORD has value `null`,
but no checkpoint line is emitted at all (`emit_state` suppresses `None`),
so the emitted checkpoint does not equal that STATE's (serialized) value. -/
theorem C7_counterexample :
    ¬ ((persistLines (defaultConfig ("b")) ("t") [Msg.state PyVal.none]).map
          emittedLine =
        Except.ok ((lastStateAfterLastRecord [Msg.state PyVal.none]).map dumps)) := by
  intro h
  have h' : (Except.ok (Option.none) : Except Err (Option String)) =
      Except.ok (some ("null")) := h
  have h2 := Except.ok.inj h'
  exact Option.noConfusion h2

/-- C7 amended: on a successful run the emitted checkpoint equals the value
of the last STATE message occurring strictly after the last RECORD message,
provided that value is not `null`; when that value is `null`, when any
RECORD follows the last STATE, or when no STATE exists, no checkpoint line
is emitted. -/
theorem C7_amended_checkpoint (cfg : Config) (now : String) (msgs : List Msg)
    (res : RunResult) (h : persistLines cfg now msgs = Except.ok res) :
    emittedLine res =
      match lastStateAfterLastRecord msgs with
      | some v => if v.isNone then Option.none else some (dumps v)
      | Option.none => Option.none := by
  have hs : res.state = stateAfter PyVal.none msgs := persistLines_state h
  unfold emittedLine
  rw [hs, stateAfter_eq]
  unfold lastStateAfterLastRecord
  cases hls : lastStateSince msgs.reverse with
  | none => cases hany : msgs.any isRecordB <;> simp [PyVal.isNone]
  | some v => rfl

/-- C7 witness: the amended claim applied to the end-to-end input, whose
run succeeds with state `{"bookmark": 1}`. -/
theorem C7_witness :
    emittedLine
      ⟨PyVal.dict [("bookmark", PyVal.int 1)],
       [⟨"b", "users/users_1.json", "\x7b'id': 1, 'name': 'a'\x7d\n", "users", 1⟩],
       [("users", ⟨"", 1, 1⟩)]⟩ =
      match lastStateAfterLastRecord msgsEndToEnd with
      | some v => if v.isNone then Option.none else some (dumps v)
      | Option.none => Option.none :=
  C7_amended_checkpoint (defaultConfig ("b")) ("t") msgsEndToEnd _ rfl

/-- `uploadsFor` distributes over append. -/
theorem uploadsFor_append (ups l : List Upload) (s : String) :
    uploadsFor (ups ++ l) s = uploadsFor ups s ++ uploadsFor l s := by
  unfold uploadsFor
  exact List.filter_append _ _

/-- An upload for another stream does not contribute to `uploadsFor s`. -/
theorem uploadsFor_single_ne (u : Upload) (s : String) (h : u.stream ≠ s) :
    uploadsFor [u] s = [] := by
  simp [uploadsFor, h]

/-- An upload for `s` contributes itself to `uploadsFor s`. -/
theorem uploadsFor_single_eq (u : Upload) (s : String) (h : u.stream = s) :
    uploadsFor [u] s = [u] := by
  simp [uploadsFor, h]

/-- Entries of `updateKey` keep keys drawn from the old keys and `k`. -/
theorem mem_updateKey_key_ne {l : List (String × StreamState)} {k : String}
    {v : StreamState} {s : String} (hl : ∀ e ∈ l, e.1 ≠ s) (hk : k ≠ s) :
    ∀ e ∈ updateKey l k v, e.1 ≠ s := by
  intro e he
  obtain ⟨e0, he0, heq⟩ := List.mem_map.mp he
  by_cases h0 : e0.1 = k
  · rw [if_pos h0] at heq
    rw [← heq]
    exact hk
  · rw [if_neg h0] at heq
    rw [← heq]
    exact hl e0 he0

/-- Entries of `streamsWithEntry` keep keys drawn from the old keys and the
added stream. -/
theorem mem_streamsWithEntry_key_ne {l : List (String × StreamState)}
    {t s : String} (hl : ∀ e ∈ l, e.1 ≠ s) (ht : t ≠ s) :
    ∀ e ∈ streamsWithEntry l t, e.1 ≠ s := by
  intro e he
  unfold streamsWithEntry at he
  split at he
  · exact hl e he
  · rcases List.mem_append.mp he with h | h
    · exact hl e h
    · rcases List.mem_singleton.mp h with rfl
      exact ht

/-- Entries of `streamsAfterAppend` keep keys drawn from the old keys and
the appended stream. -/
theorem mem_streamsAfterAppend_key_ne {rs : RunState} {t s : String}
    {rec : List (String × PyVal)} (hl : ∀ e ∈ rs.streams, e.1 ≠ s)
    (ht : t ≠ s) : ∀ e ∈ streamsAfterAppend rs t rec, e.1 ≠ s := by
  unfold streamsAfterAppend
  exact mem_updateKey_key_ne (mem_streamsWithEntry_key_ne hl ht) ht

/-- A flush decided while appending to stream `t` targets `t` itself or
the remembered previous stream. -/
theorem recordDecision_target {cfg : Config} {rs : RunState} {t fs : String}
    {r : FlushReason} (h : recordDecision cfg rs t = some (fs, r)) :
    fs = t ∨ rs.previous_stream = some fs := by
  unfold recordDecision flushDecision at h
  dsimp only at h
  split at h
  · split at h
    · have := (Option.some.inj h)
      have hfs : fs = t := congrArg Prod.fst this |>.symm
      exact Or.inl hfs
    · have := (Option.some.inj h)
      have hfs : rs.previous_stream.getD t = fs := congrArg Prod.fst this
      cases hp : rs.previous_stream with
      | none =>
        rw [hp] at hfs
        exact Or.inl hfs.symm
      | some p =>
        rw [hp] at hfs
        simp only [Option.getD_some] at hfs
        right
        exact congrArg some hfs
  · exact absurd h (by simp)

/-- A RECORD step for a different stream preserves `noTouch`. -/
theorem recordStep_noTouch {cfg : Config} {now : String} {rs : RunState}
    {t s : String} {rec : List (String × PyVal)} (ht : t ≠ s)
    (hinv : noTouch s rs) : noTouch s (recordStep cfg now rs t rec) := by
  obtain ⟨hstreams, hprev, hups⟩ := hinv
  have hkeys := @mem_streamsAfterAppend_key_ne rs t s rec hstreams ht
  cases hdec : recordDecision cfg rs t with
  | none =>
    refine ⟨?_, ?_, ?_⟩
    · rw [recordStep_streams_none hdec]
      exact hkeys
    · unfold recordStep
      rw [hdec]
      simp only []
      intro hc
      exact ht (Option.some.inj hc)
    · rw [recordStep_uploads_none hdec]
      exact hups
  | some p =>
    obtain ⟨fs, r⟩ := p
    have hfs : fs ≠ s := by
      rcases recordDecision_target hdec with h | h
      · rw [h]; exact ht
      · intro hc
        rw [hc] at h
        exact hprev h
    refine ⟨?_, ?_, ?_⟩
    · rw [recordStep_streams_some hdec, flushStream_fst]
      exact mem_updateKey_key_ne hkeys hfs
    · unfold recordStep
      rw [hdec]
      simp only []
      intro hc
      exact ht (Option.some.inj hc)
    · rw [recordStep_uploads_some hdec, flushStream_snd]
      split
      · exact hups
      · rw [uploadsFor_append, hups, uploadsFor_single_ne _ _ hfs]
        rfl

/-- Any message that is not a RECORD for `s` preserves `noTouch s`. -/
theorem step_noTouch {cfg : Config} {now : String} {rs rs' : RunState}
    {m : Msg} {s : String} (h : step cfg now rs m = Except.ok rs')
    (hm : isRecordForB s m = false) (hinv : noTouch s rs) : noTouch s rs' := by
  cases m with
  | record os rec =>
    cases os with
    | none => exact absurd h (by simp [step])
    | some t =>
      have ht : t ≠ s := by
        intro hc
        rw [hc] at hm
        simp [isRecordForB] at hm
      have h2 : recordStep cfg now rs t rec = rs' := Except.ok.inj h
      rw [← h2]
      exact recordStep_noTouch ht hinv
  | state v =>
    have h2 := Except.ok.inj h
    rw [← h2]
    exact hinv
  | schema os sd kp =>
    cases os with
    | none => exact absurd h (by simp [step])
    | some t =>
      cases kp with
      | none => exact absurd h (by simp [step])
      | some kpv =>
        have h2 := Except.ok.inj h
        rw [← h2]
        exact hinv
  | other t =>
    have h2 := Except.ok.inj h
    rw [← h2]
    exact hinv

/-- The message loop preserves `noTouch s` when no message is a RECORD for
`s`. -/
theorem go_noTouch {cfg : Config} {now : String} {s : String} :
    ∀ {msgs : List Msg} {rs rs' : RunState},
      go cfg now rs msgs = Except.ok rs' →
      msgs.all (fun m => !(isRecordForB s m)) = true →
      noTouch s rs → noTouch s rs' := by
  intro msgs
  induction msgs with
  | nil =>
    intro rs rs' h _ hinv
    have h2 : rs = rs' := Except.ok.inj h
    rw [← h2]
    exact hinv
  | cons m rest ih =>
    intro rs rs' h hall hinv
    rw [go] at h
    rw [List.all_cons] at hall
    have hm : isRecordForB s m = false := by
      cases hh : isRecordForB s m
      · rfl
      · rw [hh] at hall; simp at hall
    cases hstep : step cfg now rs m with
    | error e => rw [hstep] at h; exact absurd h (by simp)
    | ok rs1 =>
      rw [hstep] at h
      exact ih h (by simp at hall ⊢; exact hall.2) (step_noTouch hstep hm hinv)

/-- The end-of-input flush loop adds no upload for a stream that has no
`stream_config` entry. -/
theorem finalFlushLoop_uploadsFor_ne {cfg : Config} {now : String}
    {s : String} :
    ∀ (pending : List (String × StreamState)) (ups : List Upload),
      (∀ e ∈ pending, e.1 ≠ s) →
      uploadsFor (finalFlushLoop cfg now pending ups).2 s = uploadsFor ups s := by
  intro pending
  induction pending with
  | nil =>
    intro ups _
    rfl
  | cons e rest ih =>
    intro ups hkeys
    obtain ⟨t, ss⟩ := e
    have ht : t ≠ s := hkeys (t, ss) (List.mem_cons_self _ _)
    have hrec :
        (finalFlushLoop cfg now ((t, ss) :: rest) ups).2 =
          (finalFlushLoop cfg now rest
            (load_to_gcs cfg.bucket_name (streamObjectPath cfg now t)
              (objName t ss.nb_sync) ss.buffer ups t ss.nb_sync).1).2 := rfl
    rw [hrec, ih _ (fun e he => hkeys e (List.mem_cons_of_mem _ he))]
    unfold load_to_gcs
    split
    · rfl
    · rw [uploadsFor_append, uploadsFor_single_ne _ _ ht]
      exact List.append_nil _

/-- C8: flushing an empty buffer is a complete no-op (`_load_to_gcs`
uploads nothing and leaves the file as is), and a stream that never
appears in a RECORD message (for example one that only received a SCHEMA)
has no storage object uploaded for it by the end of a successful run. -/
theorem C8_empty_flush_noop_and_schema_only_no_object :
    (∀ b p n ups s q, load_to_gcs b p n ("") ups s q = (ups, "")) ∧
    (∀ cfg now msgs res s, persistLines cfg now msgs = Except.ok res →
      msgs.all (fun m => !(isRecordForB s m)) = true →
      uploadsFor res.uploads s = []) := by
  constructor
  · intro b p n ups s q
    rfl
  · intro cfg now msgs res s h hall
    unfold persistLines at h
    cases hgo : go cfg now initState msgs with
    | error e => rw [hgo] at h; exact absurd h (by simp)
    | ok rs =>
      rw [hgo] at h
      have h2 := Except.ok.inj h
      have hinv : noTouch s rs :=
        go_noTouch hgo hall ⟨by intro e he; exact absurd he (by simp [initState]),
          by simp [initState], rfl⟩
      rw [← h2]
      simp only []
      rw [finalFlushLoop_uploadsFor_ne rs.streams rs.uploads hinv.1]
      exact hinv.2.2

/-- C8 witness: a run whose only messages are a SCHEMA for `users` and a
STATE uploads nothing for `users`. -/
theorem C8_witness :
    uploadsFor
      (match persistLines (defaultConfig ("b")) ("t")
          [Msg.schema (some ("users")) schemaUsers (some (PyVal.list [PyVal.str ("id")])),
           Msg.state (PyVal.dict [("bookmark", PyVal.int 1)])] with
        | Except.ok res => res.uploads
        | Except.error _ => []) ("users") = [] := by
  have h := C8_empty_flush_noop_and_schema_only_no_object.2
    (defaultConfig ("b")) ("t")
    [Msg.schema (some ("users")) schemaUsers (some (PyVal.list [PyVal.str ("id")])),
     Msg.state (PyVal.dict [("bookmark", PyVal.int 1)])]
    ⟨PyVal.dict [("bookmark", PyVal.int 1)], [], []⟩ ("users") rfl (by decide)
  exact h

/-- Lookup on a cons cell. -/
theorem lookupD_cons (k0 : String) (v0 : StreamState)
    (l : List (String × StreamState)) (t : String) (d : StreamState) :
    lookupD ((k0, v0) :: l) t d = if k0 = t then v0 else lookupD l t d := by
  unfold lookupD
  rw [List.find?_cons]
  by_cases h : k0 = t <;> simp [h]

/-- `containsKey` on a cons cell. -/
theorem containsKey_cons (k0 : String) (v0 : StreamState)
    (l : List (String × StreamState)) (t : String) :
    containsKey ((k0, v0) :: l) t = ((k0 = t : Bool) || containsKey l t) := by
  unfold containsKey
  rw [List.any_cons]

/-- A key that is not contained looks up to the default. -/
theorem lookupD_of_not_contains {l : List (String × StreamState)} {t : String}
    (h : containsKey l t = false) (d : StreamState) : lookupD l t d = d := by
  induction l with
  | nil => rfl
  | cons e rest ih =>
    obtain ⟨k0, v0⟩ := e
    rw [containsKey_cons] at h
    rcases Bool.or_eq_false_iff.mp h with ⟨h1, h2⟩
    rw [lookupD_cons, if_neg (by simpa using h1)]
    exact ih h2

/-- `updateKey` of an absent key changes nothing. -/
theorem updateKey_of_not_contains {l : List (String × StreamState)}
    {k : String} (h : containsKey l k = false) (v : StreamState) :
    updateKey l k v = l := by
  induction l with
  | nil => rfl
  | cons e rest ih =>
    obtain ⟨k0, v0⟩ := e
    rw [containsKey_cons] at h
    rcases Bool.or_eq_false_iff.mp h with ⟨h1, h2⟩
    unfold updateKey
    rw [List.map_cons]
    rw [if_neg (by simpa using h1)]
    have ih2 := ih h2
    unfold updateKey at ih2
    rw [ih2]

/-- Lookup after updating the looked-up key (present case). -/
theorem lookupD_updateKey_eq {l : List (String × StreamState)} {k : String}
    (h : containsKey l k = true) (v : StreamState) (d : StreamState) :
    lookupD (updateKey l k v) k d = v := by
  induction l with
  | nil => exact absurd h (by simp [containsKey])
  | cons e rest ih =>
    obtain ⟨k0, v0⟩ := e
    unfold updateKey
    rw [List.map_cons]
    by_cases h0 : k0 = k
    · rw [if_pos h0]
      rw [lookupD_cons, if_pos rfl]
    · rw [if_neg h0, lookupD_cons, if_neg h0]
      rw [containsKey_cons] at h
      rcases Bool.or_eq_true_iff.mp h with h1 | h2
      · exact absurd (by simpa using h1) h0
      · exact ih h2

/-- Lookup after updating a different key. -/
theorem lookupD_updateKey_ne {l : List (String × StreamState)} {k t : String}
    (h : t ≠ k) (v : StreamState) (d : StreamState) :
    lookupD (updateKey l k v) t d = lookupD l t d := by
  induction l with
  | nil => rfl
  | cons e rest ih =>
    obtain ⟨k0, v0⟩ := e
    unfold updateKey
    rw [List.map_cons]
    by_cases h0 : k0 = k
    · rw [if_pos h0, lookupD_cons, lookupD_cons]
      have hk : ¬ (k = t) := fun hc => h hc.symm
      have hk0 : ¬ (k0 = t) := fun hc => h (hc.symm.trans h0)
      rw [if_neg hk, if_neg hk0]
      exact ih
    · rw [if_neg h0, lookupD_cons, lookupD_cons]
      by_cases h1 : k0 = t
      · rw [if_pos h1, if_pos h1]
      · rw [if_neg h1, if_neg h1]
        exact ih

/-- `updateKey` does not change the key list. -/
theorem updateKey_keys (l : List (String × StreamState)) (k : String)
    (v : StreamState) : (updateKey l k v).map Prod.fst = l.map Prod.fst := by
  induction l with
  | nil => rfl
  | cons e rest ih =>
    obtain ⟨k0, v0⟩ := e
    unfold updateKey
    rw [List.map_cons, List.map_cons, List.map_cons]
    by_cases h0 : k0 = k
    · rw [if_pos h0]
      unfold updateKey at ih
      rw [ih, h0]
    · rw [if_neg h0]
      unfold updateKey at ih
      rw [ih]

/-- `containsKey` of a key that is absent exactly when it is not among the
keys. -/
theorem containsKey_eq_false_iff (l : List (String × StreamState))
    (t : String) : containsKey l t = false ↔ t ∉ l.map Prod.fst := by
  unfold containsKey
  rw [← Bool.not_eq_true, List.any_eq_true]
  simp

/-- `containsKey` over an appended singleton. -/
theorem containsKey_append_single (l : List (String × StreamState))
    (k : String) (v : StreamState) (t : String) :
    containsKey (l ++ [(k, v)]) t = (containsKey l t || (k = t : Bool)) := by
  unfold containsKey
  rw [List.any_append]
  simp

/-- The entry just added by `streamsWithEntry` is contained. -/
theorem containsKey_streamsWithEntry_self (l : List (String × StreamState))
    (s : String) : containsKey (streamsWithEntry l s) s = true := by
  unfold streamsWithEntry
  by_cases h : containsKey l s
  · rw [if_pos h]
    exact h
  · rw [if_neg h]
    rw [containsKey_append_single]
    simp

/-- Lookup over an appended singleton. -/
theorem lookupD_append_single (l : List (String × StreamState)) (k : String)
    (v : StreamState) (t : String) (d : StreamState) :
    lookupD (l ++ [(k, v)]) t d =
      if containsKey l t then lookupD l t d else if k = t then v else d := by
  induction l with
  | nil =>
    rw [List.nil_append]
    rw [lookupD_cons]
    simp only [containsKey, List.any_nil, Bool.false_eq_true, if_false]
    split <;> rfl
  | cons e rest ih =>
    obtain ⟨k0, v0⟩ := e
    rw [List.cons_append, lookupD_cons, lookupD_cons, containsKey_cons]
    by_cases h0 : k0 = t
    · simp [h0]
    · rw [if_neg h0, if_neg h0, ih]
      have hb : ((k0 = t : Bool) || containsKey rest t) = containsKey rest t := by
        simp [h0]
      rw [hb]

/-- `streamsWithEntry` keeps the keys distinct. -/
theorem nodup_streamsWithEntry {l : List (String × StreamState)} {s : String}
    (h : (l.map Prod.fst).Nodup) :
    ((streamsWithEntry l s).map Prod.fst).Nodup := by
  unfold streamsWithEntry
  by_cases hc : containsKey l s
  · rw [if_pos hc]
    exact h
  · rw [if_neg hc]
    rw [List.map_append]
    refine List.Nodup.append h (by simp) ?_
    intro a ha hb
    rcases List.mem_singleton.mp (by simpa using hb) with rfl
    exact (containsKey_eq_false_iff l a).mp (by simpa using hc) ha

/-- Every entry of `updateKey` is the new entry or an old one. -/
theorem mem_updateKey_or {l : List (String × StreamState)} {k : String}
    {v : StreamState} {e : String × StreamState} (h : e ∈ updateKey l k v) :
    e = (k, v) ∨ e ∈ l := by
  obtain ⟨e0, he0, heq⟩ := List.mem_map.mp h
  by_cases h0 : e0.1 = k
  · rw [if_pos h0] at heq
    exact Or.inl heq.symm
  · rw [if_neg h0] at heq
    rw [← heq]
    exact Or.inr he0

/-- Every entry of `streamsWithEntry` is old or the fresh entry. -/
theorem mem_streamsWithEntry_or {l : List (String × StreamState)} {s : String}
    {e : String × StreamState} (h : e ∈ streamsWithEntry l s) :
    e ∈ l ∨ e = (s, freshStream) := by
  unfold streamsWithEntry at h
  split at h
  · exact Or.inl h
  · rcases List.mem_append.mp h with h1 | h1
    · exact Or.inl h1
    · exact Or.inr (List.mem_singleton.mp h1)

/-- Appending a record does not change any stream's `nb_sync`. -/
theorem nbSync_streamsAfterAppend (rs : RunState) (s : String)
    (rec : List (String × PyVal)) (t : String) :
    (lookupD (streamsAfterAppend rs s rec) t freshStream).nb_sync =
      nbSyncOf rs t := by
  unfold streamsAfterAppend
  simp only []
  by_cases hts : t = s
  · subst hts
    rw [lookupD_updateKey_eq (containsKey_streamsWithEntry_self rs.streams t)]
    unfold streamsWithEntry
    by_cases hc : containsKey rs.streams t
    · rw [if_pos hc]
      rfl
    · rw [if_neg hc, lookupD_append_single,
        if_neg (by simpa using hc), if_pos rfl]
      unfold nbSyncOf
      rw [lookupD_of_not_contains (by simpa using hc)]
  · rw [lookupD_updateKey_ne hts]
    unfold streamsWithEntry
    by_cases hc : containsKey rs.streams s
    · rw [if_pos hc]
      rfl
    · rw [if_neg hc, lookupD_append_single]
      by_cases hct : containsKey rs.streams t
      · rw [if_pos hct]
        rfl
      · rw [if_neg (by simpa using hct), if_neg (fun hst => hts hst.symm)]
        unfold nbSyncOf
        rw [lookupD_of_not_contains (by simpa using hct)]

/-- A lookup returns the default or a stored value. -/
theorem lookupD_mem_or (l : List (String × StreamState)) (t : String)
    (d : StreamState) : lookupD l t d = d ∨ ∃ e ∈ l, lookupD l t d = e.2 := by
  induction l with
  | nil => exact Or.inl rfl
  | cons e rest ih =>
    obtain ⟨k0, v0⟩ := e
    rw [lookupD_cons]
    by_cases h0 : k0 = t
    · rw [if_pos h0]
      exact Or.inr ⟨(k0, v0), List.mem_cons_self _ _, rfl⟩
    · rw [if_neg h0]
      rcases ih with h | ⟨e0, he0, heq⟩
      · exact Or.inl h
      · exact Or.inr ⟨e0, List.mem_cons_of_mem _ he0, heq⟩

/-- When all entries have `nb_sync ≥ 1` so does any lookup (the default
`freshStream` has `nb_sync = 1`). -/
theorem lookupD_nb_sync_ge {l : List (String × StreamState)}
    (h : ∀ e ∈ l, 1 ≤ e.2.nb_sync) (t : String) :
    1 ≤ (lookupD l t freshStream).nb_sync := by
  rcases lookupD_mem_or l t freshStream with heq | ⟨e, he, heq⟩
  · rw [heq]
    exact Nat.le_refl 1
  · rw [heq]
    exact h e he

/-- A nonempty looked-up buffer means the key is present. -/
theorem contains_of_buffer_ne {l : List (String × StreamState)} {t : String}
    (h : (lookupD l t freshStream).buffer ≠ "") : containsKey l t = true := by
  cases hc : containsKey l t
  · rw [lookupD_of_not_contains hc] at h
    exact absurd rfl h
  · rfl

/-- `streamsAfterAppend` keeps the keys distinct. -/
theorem nodup_streamsAfterAppend {rs : RunState} {s : String}
    {rec : List (String × PyVal)} (h : (rs.streams.map Prod.fst).Nodup) :
    ((streamsAfterAppend rs s rec).map Prod.fst).Nodup := by
  unfold streamsAfterAppend
  simp only []
  rw [updateKey_keys]
  exact nodup_streamsWithEntry h

/-- `streamsAfterAppend` keeps all `nb_sync` counters at least 1. -/
theorem syncGE_streamsAfterAppend {rs : RunState} {s : String}
    {rec : List (String × PyVal)} (h : ∀ e ∈ rs.streams, 1 ≤ e.2.nb_sync) :
    ∀ e ∈ streamsAfterAppend rs s rec, 1 ≤ e.2.nb_sync := by
  intro e he
  unfold streamsAfterAppend at he
  simp only [] at he
  have hsw : ∀ e0 ∈ streamsWithEntry rs.streams s, 1 ≤ e0.2.nb_sync := by
    intro e0 he0
    rcases mem_streamsWithEntry_or he0 with h1 | h1
    · exact h e0 h1
    · rw [h1]
      exact Nat.le_refl 1
  rcases mem_updateKey_or he with h1 | h1
  · rw [h1]
    exact lookupD_nb_sync_ge hsw s
  · exact hsw e h1

/-- Membership in `uploadsFor`. -/
theorem mem_uploadsFor {ups : List Upload} {s : String} {u : Upload}
    (h : u ∈ uploadsFor ups s) : u ∈ ups ∧ u.stream = s := by
  unfold uploadsFor at h
  have h2 := List.mem_filter.mp h
  exact ⟨h2.1, by simpa using h2.2⟩

/-- Conversely, an upload for `s` is in `uploadsFor s`. -/
theorem mem_uploadsFor_of {ups : List Upload} {s : String} {u : Upload}
    (h : u ∈ ups) (hs : u.stream = s) : u ∈ uploadsFor ups s := by
  unfold uploadsFor
  exact List.mem_filter.mpr ⟨h, by simpa using hs⟩

/-- A RECORD step preserves the C4 invariant. -/
theorem recordStep_SeqInv {cfg : Config} {now : String} {rs : RunState}
    {s : String} {rec : List (String × PyVal)} (hinv : SeqInv rs) :
    SeqInv (recordStep cfg now rs s rec) := by
  cases hdec : recordDecision cfg rs s with
  | none =>
    refine ⟨?_, ?_, ?_, ?_, ?_⟩
    · rw [recordStep_streams_none hdec]
      exact nodup_streamsAfterAppend hinv.nodup
    · rw [recordStep_streams_none hdec]
      exact syncGE_streamsAfterAppend hinv.syncGE
    · intro t
      rw [recordStep_uploads_none hdec]
      exact hinv.pw t
    · intro u hu
      rw [recordStep_uploads_none hdec] at hu
      exact hinv.seqGE u hu
    · intro u hu
      rw [recordStep_uploads_none hdec] at hu
      unfold nbSyncOf
      rw [recordStep_streams_none hdec, nbSync_streamsAfterAppend]
      exact hinv.bound u hu
  | some p =>
    obtain ⟨fs, r⟩ := p
    have hns : (lookupD (streamsAfterAppend rs s rec) fs freshStream).nb_sync
        = nbSyncOf rs fs := nbSync_streamsAfterAppend rs s rec fs
    have hstreams := @recordStep_streams_some cfg now rs s rec fs r hdec
    rw [flushStream_fst] at hstreams
    have hups := @recordStep_uploads_some cfg now rs s rec fs r hdec
    rw [flushStream_snd] at hups
    have hsw_nodup := @nodup_streamsAfterAppend rs s rec hinv.nodup
    have hsw_syncGE := @syncGE_streamsAfterAppend rs s rec hinv.syncGE
    have hnodup2 : ((recordStep cfg now rs s rec).streams.map Prod.fst).Nodup := by
      rw [hstreams, updateKey_keys]
      exact hsw_nodup
    have hsync2 : ∀ e ∈ (recordStep cfg now rs s rec).streams, 1 ≤ e.2.nb_sync := by
      rw [hstreams]
      intro e he
      rcases mem_updateKey_or he with h1 | h1
      · rw [h1]
        exact Nat.succ_le_succ (Nat.zero_le _)
      · exact hsw_syncGE e h1
    have hge : ∀ t, nbSyncOf rs t ≤ nbSyncOf (recordStep cfg now rs s rec) t := by
      intro t
      unfold nbSyncOf
      rw [hstreams]
      by_cases ht : t = fs
      · subst ht
        cases hc : containsKey (streamsAfterAppend rs s rec) t with
        | false =>
          rw [updateKey_of_not_contains hc, nbSync_streamsAfterAppend]
          exact Nat.le_refl _
        | true =>
          rw [lookupD_updateKey_eq hc]
          rw [show (lookupD (streamsAfterAppend rs s rec) t freshStream).nb_sync
              = nbSyncOf rs t from nbSync_streamsAfterAppend rs s rec t] at *
          exact Nat.le_succ _
      · rw [lookupD_updateKey_ne ht, nbSync_streamsAfterAppend]
        exact Nat.le_refl _
    by_cases hbuf : (lookupD (streamsAfterAppend rs s rec) fs freshStream).buffer = ""
    · rw [if_pos hbuf] at hups
      refine ⟨hnodup2, hsync2, ?_, ?_, ?_⟩
      · intro t
        rw [hups]
        exact hinv.pw t
      · intro u hu
        rw [hups] at hu
        exact hinv.seqGE u hu
      · intro u hu
        rw [hups] at hu
        exact Nat.lt_of_lt_of_le (hinv.bound u hu) (hge u.stream)
    · rw [if_neg hbuf] at hups
      have hcont : containsKey (streamsAfterAppend rs s rec) fs = true :=
        contains_of_buffer_ne hbuf
      refine ⟨hnodup2, hsync2, ?_, ?_, ?_⟩
      · intro t
        rw [hups, uploadsFor_append]
        by_cases ht : t = fs
        · subst ht
          rw [uploadsFor_single_eq _ _ rfl, List.map_append]
          rw [List.pairwise_append]
          refine ⟨hinv.pw t, by simp, ?_⟩
          intro a ha b hb
          rcases List.mem_singleton.mp hb with rfl
          obtain ⟨u0, hu0, ha0⟩ := List.mem_map.mp ha
          rw [← ha0]
          have hmem := mem_uploadsFor hu0
          have hb0 := hinv.bound u0 hmem.1
          rw [hmem.2] at hb0
          rw [hns]
          exact hb0
        · rw [uploadsFor_single_ne _ _ (fun hc => ht hc.symm), List.append_nil]
          exact hinv.pw t
      · intro u hu
        rw [hups] at hu
        rcases List.mem_append.mp hu with h1 | h1
        · exact hinv.seqGE u h1
        · rcases List.mem_singleton.mp h1 with rfl
          exact lookupD_nb_sync_ge hsw_syncGE fs
      · intro u hu
        rw [hups] at hu
        rcases List.mem_append.mp hu with h1 | h1
        · exact Nat.lt_of_lt_of_le (hinv.bound u h1) (hge u.stream)
        · rcases List.mem_singleton.mp h1 with rfl
          unfold nbSyncOf
          rw [hstreams]
          simp only []
          rw [lookupD_updateKey_eq hcont]
          exact Nat.lt_succ_self _

/-- Looking up a stored entry under distinct keys returns its value. -/
theorem lookupD_of_mem_nodup {l : List (String × StreamState)} {k : String}
    {v : StreamState} (hnd : (l.map Prod.fst).Nodup) (hm : (k, v) ∈ l)
    (d : StreamState) : lookupD l k d = v := by
  induction l with
  | nil => exact absurd hm (List.not_mem_nil _)
  | cons e rest ih =>
    obtain ⟨k0, v0⟩ := e
    rw [List.map_cons, List.nodup_cons] at hnd
    rw [lookupD_cons]
    rcases List.mem_cons.mp hm with h1 | h1
    · have hk : k0 = k := (congrArg Prod.fst h1).symm
      rw [if_pos hk]
      have hv : v0 = v := congrArg Prod.snd h1.symm
      exact hv
    · by_cases h0 : k0 = k
      · exfalso
        apply hnd.1
        rw [h0]
        exact List.mem_map.mpr ⟨(k, v), h1, rfl⟩
      · rw [if_neg h0]
        exact ih hnd.2 h1

/-- Every non-RECORD message preserves the C4 invariant. -/
theorem step_SeqInv {cfg : Config} {now : String} {rs rs' : RunState}
    {m : Msg} (h : step cfg now rs m = Except.ok rs') (hinv : SeqInv rs) :
    SeqInv rs' := by
  cases m with
  | record os rec =>
    cases os with
    | none => exact absurd h (by simp [step])
    | some t =>
      have h2 : recordStep cfg now rs t rec = rs' := Except.ok.inj h
      rw [← h2]
      exact recordStep_SeqInv hinv
  | state v =>
    have h2 := Except.ok.inj h
    rw [← h2]
    exact ⟨hinv.nodup, hinv.syncGE, hinv.pw, hinv.seqGE, hinv.bound⟩
  | schema os sd kp =>
    cases os with
    | none => exact absurd h (by simp [step])
    | some t =>
      cases kp with
      | none => exact absurd h (by simp [step])
      | some kpv =>
        have h2 := Except.ok.inj h
        rw [← h2]
        exact ⟨hinv.nodup, hinv.syncGE, hinv.pw, hinv.seqGE, hinv.bound⟩
  | other t =>
    have h2 := Except.ok.inj h
    rw [← h2]
    exact hinv

/-- The message loop preserves the C4 invariant. -/
theorem go_SeqInv {cfg : Config} {now : String} :
    ∀ {msgs : List Msg} {rs rs' : RunState},
      go cfg now rs msgs = Except.ok rs' → SeqInv rs → SeqInv rs' := by
  intro msgs
  induction msgs with
  | nil =>
    intro rs rs' h hinv
    have h2 : rs = rs' := Except.ok.inj h
    rw [← h2]
    exact hinv
  | cons m rest ih =>
    intro rs rs' h hinv
    rw [go] at h
    cases hstep : step cfg now rs m with
    | error e => rw [hstep] at h; exact absurd h (by simp)
    | ok rs1 =>
      rw [hstep] at h
      exact ih h (step_SeqInv hstep hinv)

/-- The end-of-input flush loop keeps upload sequence numbers strictly
increasing per stream and at least 1, given the loop invariant. -/
theorem finalFlushLoop_seq {cfg : Config} {now : String} :
    ∀ (pending : List (String × StreamState)) (ups : List Upload),
      (pending.map Prod.fst).Nodup →
      (∀ s, ((uploadsFor ups s).map Upload.seq).Pairwise (· < ·)) →
      (∀ u ∈ ups, 1 ≤ u.seq) →
      (∀ e ∈ pending, 1 ≤ e.2.nb_sync ∧
        ∀ u ∈ uploadsFor ups e.1, u.seq < e.2.nb_sync) →
      (∀ s, ((uploadsFor (finalFlushLoop cfg now pending ups).2 s).map
          Upload.seq).Pairwise (· < ·)) ∧
      (∀ u ∈ (finalFlushLoop cfg now pending ups).2, 1 ≤ u.seq) := by
  intro pending
  induction pending with
  | nil =>
    intro ups _ hpw hge _
    exact ⟨hpw, hge⟩
  | cons e rest ih =>
    intro ups hnd hpw hge hpend
    obtain ⟨t, ss⟩ := e
    rw [List.map_cons, List.nodup_cons] at hnd
    have hrec :
        (finalFlushLoop cfg now ((t, ss) :: rest) ups).2 =
          (finalFlushLoop cfg now rest
            (load_to_gcs cfg.bucket_name (streamObjectPath cfg now t)
              (objName t ss.nb_sync) ss.buffer ups t ss.nb_sync).1).2 := rfl
    rw [hrec]
    have hhead := hpend (t, ss) (List.mem_cons_self _ _)
    have hrest : ∀ e0 ∈ rest, e0.1 ≠ t := by
      intro e0 he0 hc
      apply hnd.1
      rw [← hc]
      exact List.mem_map.mpr ⟨e0, he0, rfl⟩
    unfold load_to_gcs
    by_cases hbuf : ss.buffer = ""
    · rw [if_pos hbuf]
      exact ih ups hnd.2 hpw hge
        (fun e0 he0 => hpend e0 (List.mem_cons_of_mem _ he0))
    · rw [if_neg hbuf]
      simp only []
      refine ih _ hnd.2 ?_ ?_ ?_
      · intro s
        rw [uploadsFor_append]
        by_cases hts : s = t
        · subst hts
          rw [uploadsFor_single_eq _ _ rfl, List.map_append, List.pairwise_append]
          refine ⟨hpw s, by simp, ?_⟩
          intro a ha b hb
          rcases List.mem_singleton.mp hb with rfl
          obtain ⟨u0, hu0, ha0⟩ := List.mem_map.mp ha
          rw [← ha0]
          exact hhead.2 u0 hu0
        · rw [uploadsFor_single_ne _ _ (fun hc => hts hc.symm), List.append_nil]
          exact hpw s
      · intro u hu
        rcases List.mem_append.mp hu with h1 | h1
        · exact hge u h1
        · rcases List.mem_singleton.mp h1 with rfl
          exact hhead.1
      · intro e0 he0
        refine ⟨(hpend e0 (List.mem_cons_of_mem _ he0)).1, ?_⟩
        intro u hu
        rw [uploadsFor_append] at hu
        rcases List.mem_append.mp hu with h1 | h1
        · exact (hpend e0 (List.mem_cons_of_mem _ he0)).2 u h1
        · exfalso
          have := (mem_uploadsFor h1).2
          rcases List.mem_singleton.mp (mem_uploadsFor h1).1 with rfl
          exact hrest e0 he0 (by rw [← this])

/-- C4 counterexample: with `sync_batch = 2`, `sync_if_stream_changes` and
input RECORD(A), RECORD(A), RECORD(B), stream `A` is uploaded exactly once
(as `A_1.json`), so under the claim its counter would end at 2; in fact the
stream-change flush of `A`'s already-empty buffer still incremented
`nb_sync`, which ends at 3 — sequence number 2 was consumed without naming
any object. -/
theorem C4_counterexample :
    ¬ ((persistLines cfgStreamChange ("t") msgsAAB).map
        (fun r => (lookupD r.streams ("A") freshStream).nb_sync) =
      Except.ok 2) := by
  intro h
  have h' : (Except.ok 3 : Except Err Nat) = Except.ok 2 := h
  have h2 := Except.ok.inj h'
  exact absurd h2 (by decide)

/-- C4 amended: per stream the counter starts at 1, but it is incremented
after every triggered flush — including the empty-buffer no-op — so a
sequence number may name no object.  What remains true on every successful
run: the uploads of each stream carry strictly increasing sequence numbers
that are at least 1, so each used sequence number names at most one
uploaded object per stream. -/
theorem C4_amended_seq_numbers :
    ∀ cfg now msgs res, persistLines cfg now msgs = Except.ok res →
      ∀ s, ((uploadsFor res.uploads s).map Upload.seq).Pairwise (· < ·) ∧
        ∀ u ∈ uploadsFor res.uploads s, 1 ≤ u.seq := by
  intro cfg now msgs res h s
  unfold persistLines at h
  cases hgo : go cfg now initState msgs with
  | error e => rw [hgo] at h; exact absurd h (by simp)
  | ok rs =>
    rw [hgo] at h
    have h2 := Except.ok.inj h
    have hinv : SeqInv rs := go_SeqInv hgo
      ⟨by simp [initState],
       by intro e he; exact absurd he (List.not_mem_nil _),
       by intro t; exact List.Pairwise.nil,
       by intro u hu; exact absurd hu (List.not_mem_nil _),
       by intro u hu; exact absurd hu (List.not_mem_nil _)⟩
    have hpend : ∀ e ∈ rs.streams, 1 ≤ e.2.nb_sync ∧
        ∀ u ∈ uploadsFor rs.uploads e.1, u.seq < e.2.nb_sync := by
      intro e he
      refine ⟨hinv.syncGE e he, ?_⟩
      intro u hu
      have hb := hinv.bound u (mem_uploadsFor hu).1
      have hs := (mem_uploadsFor hu).2
      rw [hs] at hb
      unfold nbSyncOf at hb
      rw [lookupD_of_mem_nodup hinv.nodup he] at hb
      exact hb
    have hfin := @finalFlushLoop_seq cfg now rs.streams
      rs.uploads hinv.nodup hinv.pw hinv.seqGE hpend
    rw [← h2]
    exact ⟨hfin.1 s, fun u hu => hfin.2 u (mem_uploadsFor hu).1⟩

/-- C4 witness: the amended claim applied to the `cfgStreamChange` run of
RECORD(A), RECORD(A), RECORD(B). -/
theorem C4_witness :
    ((uploadsFor
        [⟨"b", "A/A_1.json", "\x7b'x': 1\x7d\n\x7b'x': 1\x7d\n", "A", 1⟩,
         ⟨"b", "B/B_1.json", "\x7b'x': 1\x7d\n", "B", 1⟩] ("A")).map
      Upload.seq).Pairwise (· < ·) ∧
    ∀ u ∈ uploadsFor
        [⟨"b", "A/A_1.json", "\x7b'x': 1\x7d\n\x7b'x': 1\x7d\n", "A", 1⟩,
         ⟨"b", "B/B_1.json", "\x7b'x': 1\x7d\n", "B", 1⟩] ("A"), 1 ≤ u.seq :=
  C4_amended_seq_numbers cfgStreamChange ("t") msgsAAB
    ⟨PyVal.none,
     [⟨"b", "A/A_1.json", "\x7b'x': 1\x7d\n\x7b'x': 1\x7d\n", "A", 1⟩,
      ⟨"b", "B/B_1.json", "\x7b'x': 1\x7d\n", "B", 1⟩],
     [("A", ⟨"", 3, 2⟩), ("B", ⟨"", 1, 1⟩)]⟩ rfl ("A")

/-- Scanning separator-free characters accumulates them into one part. -/
theorem splitSepChars_no_sep :
    ∀ (cs : List Char), hasSep cs = false →
      ∀ acc, splitSepChars cs acc = [acc.reverse ++ cs] := by
  intro cs
  induction cs with
  | nil =>
    intro _ acc
    simp [splitSepChars]
  | cons c tl ih =>
    cases tl with
    | nil =>
      intro _ acc
      simp [splitSepChars]
    | cons c2 rest =>
      intro h acc
      simp only [hasSep] at h
      rcases Bool.or_eq_false_iff.mp h with ⟨h1, h2⟩
      have hno : ¬ (c = '_' ∧ c2 = '_') := by
        intro hand
        rw [hand.1, hand.2] at h1
        simp at h1
      rw [splitSepChars, if_neg hno, ih h2 (c :: acc)]
      simp

/-- Scanning a safe part followed by the separator emits the part and
restarts after the separator. -/
theorem splitSepChars_sep_split :
    ∀ (cs : List Char), hasSep cs = false → cs.getLast? ≠ some '_' →
      ∀ (l acc : List Char),
        splitSepChars (cs ++ '_' :: '_' :: l) acc =
          (acc.reverse ++ cs) :: splitSepChars l [] := by
  intro cs
  induction cs with
  | nil =>
    intro _ _ l acc
    rw [List.nil_append, splitSepChars, if_pos ⟨rfl, rfl⟩]
    simp
  | cons c tl ih =>
    cases tl with
    | nil =>
      intro _ hlast l acc
      have hc : ¬ (c = '_') := by
        intro hcc
        exact hlast (by rw [hcc]; rfl)
      rw [List.cons_append, List.nil_append, splitSepChars,
        if_neg (fun hand => hc hand.1), splitSepChars, if_pos ⟨rfl, rfl⟩]
      simp
    | cons c2 rest =>
      intro h hlast l acc
      simp only [hasSep] at h
      rcases Bool.or_eq_false_iff.mp h with ⟨h1, h2⟩
      have hno : ¬ (c = '_' ∧ c2 = '_') := by
        intro hand
        rw [hand.1, hand.2] at h1
        simp at h1
      have hlast2 : (c2 :: rest).getLast? ≠ some '_' := by
        rw [List.getLast?_cons_cons] at hlast
        exact hlast
      rw [List.cons_append, List.cons_append, splitSepChars, if_neg hno]
      rw [show c2 :: (rest ++ '_' :: '_' :: l) = (c2 :: rest) ++ '_' :: '_' :: l
        from rfl]
      rw [ih h2 hlast2 l (c :: acc)]
      simp

/-- Splitting the separator-join of safe parts recovers the parts. -/
theorem splitSepChars_joinChars :
    ∀ (ps : List (List Char)),
      (∀ p ∈ ps, hasSep p = false ∧ p.getLast? ≠ some '_') →
      ps ≠ [] → splitSepChars (joinChars ps) [] = ps := by
  intro ps
  induction ps with
  | nil => intro _ h; exact absurd rfl h
  | cons p tl ih =>
    cases tl with
    | nil =>
      intro hsafe _
      rw [joinChars, splitSepChars_no_sep p (hsafe p (List.mem_singleton_self p)).1]
      rfl
    | cons q qs =>
      intro hsafe _
      have hp := hsafe p (List.mem_cons_self _ _)
      rw [show joinChars (p :: q :: qs) = p ++ '_' :: '_' :: joinChars (q :: qs)
        from rfl]
      rw [splitSepChars_sep_split p hp.1 hp.2]
      rw [ih (fun x hx => hsafe x (List.mem_cons_of_mem _ hx))
        (List.cons_ne_nil q qs)]
      rfl

/-- The characters of `joinPath` are `joinChars` of the components'
characters. -/
theorem joinPath_data :
    ∀ (ks : List String), (joinPath ks).data = joinChars (ks.map String.data) := by
  intro ks
  induction ks with
  | nil => rfl
  | cons k tl ih =>
    cases tl with
    | nil => rfl
    | cons q qs =>
      rw [show joinPath (k :: q :: qs) = k ++ "__" ++ joinPath (q :: qs) from rfl]
      rw [show (k :: q :: qs).map String.data
          = k.data :: (q :: qs).map String.data from rfl]
      rw [show joinChars (k.data :: (q :: qs).map String.data)
          = k.data ++ '_' :: '_' :: joinChars ((q :: qs).map String.data) from rfl]
      rw [String.data_append, String.data_append, ih]
      simp

/-- What `safeKeyB` guarantees, in the form the split lemmas need. -/
theorem safeKey_parts {k : String} (h : safeKeyB k = true) :
    hasSep k.data = false ∧ k.data.getLast? ≠ some '_' ∧ k.data ≠ [] := by
  unfold safeKeyB at h
  simp only [Bool.and_eq_true] at h
  obtain ⟨⟨h1, h2⟩, h3⟩ := h
  refine ⟨by simpa using h2, ?_, ?_⟩
  · intro hc
    rw [hc] at h3
    simp at h3
  · intro hc
    rw [hc] at h1
    simp at h1

/-- A nonempty key is not the empty string. -/
theorem safeKey_ne_empty {k : String} (h : safeKeyB k = true) : k ≠ ("") := by
  intro hc
  have h2 := (safeKey_parts h).2.2
  rw [hc] at h2
  exact h2 rfl

/-- Splitting the `__`-join of separator-safe components recovers them. -/
theorem splitSep_joinPath (ks : List String)
    (hsafe : ∀ k ∈ ks, safeKeyB k = true) (hne : ks ≠ []) :
    splitSep (joinPath ks) = ks := by
  unfold splitSep
  rw [joinPath_data]
  rw [splitSepChars_joinChars (ks.map String.data) ?hs ?hn]
  case hs =>
    intro p hp
    obtain ⟨k, hk, hkeq⟩ := List.mem_map.mp hp
    rw [← hkeq]
    have h2 := safeKey_parts (hsafe k hk)
    exact ⟨h2.1, h2.2.1⟩
  case hn =>
    intro hc
    exact hne (List.map_eq_nil_iff.mp hc)
  rw [List.map_map]
  exact List.map_id'' (fun s => rfl) ks

/-- `joinPath` over a snoc when the prefix is nonempty. -/
theorem joinPath_append_single :
    ∀ (ps : List String) (k : String), ps ≠ [] →
      joinPath (ps ++ [k]) = joinPath ps ++ "__" ++ k := by
  intro ps
  induction ps with
  | nil => intro k h; exact absurd rfl h
  | cons p tl ih =>
    cases tl with
    | nil => intro k _; rfl
    | cons q qs =>
      intro k _
      have h1 : (p :: q :: qs) ++ [k] = p :: q :: (qs ++ [k]) := by simp
      rw [h1]
      rw [show joinPath (p :: q :: (qs ++ [k]))
          = p ++ "__" ++ joinPath (q :: (qs ++ [k])) from rfl]
      have h2 : q :: (qs ++ [k]) = (q :: qs) ++ [k] := by simp
      rw [h2, ih k (List.cons_ne_nil q qs)]
      rw [show joinPath (p :: q :: qs) = p ++ "__" ++ joinPath (q :: qs) from rfl]
      simp [String.append_assoc]

/-- A join ending in a nonempty component is nonempty. -/
theorem joinPath_append_ne_empty (ps : List String) (k : String)
    (hk : k ≠ ("")) : joinPath (ps ++ [k]) ≠ ("") := by
  cases ps with
  | nil => simpa using hk
  | cons p tl =>
    rw [joinPath_append_single (p :: tl) k (List.cons_ne_nil p tl)]
    intro hc
    have hd := congrArg String.data hc
    rw [String.data_append] at hd
    rcases List.append_eq_nil.mp hd with ⟨hd1, _⟩
    rw [String.data_append] at hd1
    rcases List.append_eq_nil.mp hd1 with ⟨_, hd2⟩
    exact absurd hd2 (by simp [String.data])

/-- Destructor for `safeDictB` on a cons cell. -/
theorem safeDict_cons {k : String} {v : PyVal} {rest : List (String × PyVal)}
    (h : safeDictB ((k, v) :: rest) = true) :
    safeKeyB k = true ∧ rest.any (fun e => e.1 == k) = false ∧
      safeValB v = true ∧ safeDictB rest = true := by
  simp only [safeDictB, Bool.and_eq_true] at h
  obtain ⟨⟨⟨h1, h2⟩, h3⟩, h4⟩ := h
  exact ⟨h1, by simpa using h2, h3, h4⟩

mutual

/-- Under safe keys the flattener's item list is exactly the leaf list,
with each leaf's path joined by `__` and its value converted. -/
theorem flattenItems_leaves :
    ∀ (d : List (String × PyVal)) (pref : List String),
      safeDictB d = true → (pref = [] ∨ joinPath pref ≠ ("")) →
      flattenItems d (joinPath pref) ("__") =
        (leafPaths d pref).map (fun pv => (joinPath pv.1, convLeaf pv.2))
  | [], _, _, _ => rfl
  | (k, v) :: rest, pref, hsafe, hpref => by
    obtain ⟨hk, hnd, hv, hrest⟩ := safeDict_cons hsafe
    have hkey : (if joinPath pref = "" then k else joinPath pref ++ "__" ++ k)
        = joinPath (pref ++ [k]) := by
      rcases hpref with hp | hp
      · subst hp
        rw [if_pos (show joinPath ([] : List String) = ("") from rfl)]
        rfl
      · rw [if_neg hp]
        have hpne : pref ≠ [] := by
          intro hc
          rw [hc] at hp
          exact hp rfl
        rw [joinPath_append_single pref k hpne]
    have heq1 : flattenItems ((k, v) :: rest) (joinPath pref) ("__")
        = flattenEntry v (if joinPath pref = "" then k
            else joinPath pref ++ "__" ++ k) ("__")
          ++ flattenItems rest (joinPath pref) ("__") := rfl
    rw [heq1, hkey]
    rw [show leafPaths ((k, v) :: rest) pref
        = leafPathsEntry v (pref ++ [k]) ++ leafPaths rest pref from rfl]
    rw [List.map_append]
    rw [flattenEntry_leaves v (pref ++ [k]) hv
      ⟨by simp, joinPath_append_ne_empty pref k (safeKey_ne_empty hk)⟩]
    rw [flattenItems_leaves rest pref hrest hpref]

/-- `flattenEntry` on one value matches its leaf list. -/
theorem flattenEntry_leaves :
    ∀ (v : PyVal) (p : List String), safeValB v = true →
      (p ≠ [] ∧ joinPath p ≠ ("")) →
      flattenEntry v (joinPath p) ("__") =
        (leafPathsEntry v p).map (fun pv => (joinPath pv.1, convLeaf pv.2))
  | PyVal.dict sub, p, hsafe, hp => by
    rw [show flattenEntry (PyVal.dict sub) (joinPath p) ("__")
        = flattenItems sub (joinPath p) ("__") from rfl]
    rw [show leafPathsEntry (PyVal.dict sub) p = leafPaths sub p from rfl]
    exact flattenItems_leaves sub p hsafe (Or.inr hp.2)
  | PyVal.none, _, _, _ => rfl
  | PyVal.bool b, _, _, _ => rfl
  | PyVal.int n, _, _, _ => rfl
  | PyVal.str s, _, _, _ => rfl
  | PyVal.list xs, _, _, _ => rfl

end

mutual

/-- Every leaf path extends the prefix by a key of the dict and more. -/
theorem mem_leafPaths_structure :
    ∀ (d : List (String × PyVal)) (pref : List String)
      (pv : List String × PyVal), pv ∈ leafPaths d pref →
      ∃ k q, pv.1 = pref ++ k :: q ∧ k ∈ d.map Prod.fst
  | [], _, pv, h => absurd h (List.not_mem_nil pv)
  | (k, v) :: rest, pref, pv, h => by
    rw [show leafPaths ((k, v) :: rest) pref
        = leafPathsEntry v (pref ++ [k]) ++ leafPaths rest pref from rfl] at h
    rcases List.mem_append.mp h with h1 | h1
    · obtain ⟨q, hq⟩ := mem_leafPathsEntry_structure v (pref ++ [k]) pv h1
      refine ⟨k, q, ?_, by simp⟩
      rw [hq]
      simp
    · obtain ⟨k2, q2, hq, hmem⟩ := mem_leafPaths_structure rest pref pv h1
      exact ⟨k2, q2, hq, by simp [hmem]⟩

/-- Every leaf path of one value extends the value's path. -/
theorem mem_leafPathsEntry_structure :
    ∀ (v : PyVal) (p : List String) (pv : List String × PyVal),
      pv ∈ leafPathsEntry v p → ∃ q, pv.1 = p ++ q
  | PyVal.dict sub, p, pv, h => by
    obtain ⟨k, q, hq, _⟩ := mem_leafPaths_structure sub p pv h
    exact ⟨k :: q, hq⟩
  | PyVal.none, p, pv, h => by
    rcases List.mem_singleton.mp h with rfl
    exact ⟨[], by simp⟩
  | PyVal.bool b, p, pv, h => by
    rcases List.mem_singleton.mp h with rfl
    exact ⟨[], by simp⟩
  | PyVal.int n, p, pv, h => by
    rcases List.mem_singleton.mp h with rfl
    exact ⟨[], by simp⟩
  | PyVal.str s, p, pv, h => by
    rcases List.mem_singleton.mp h with rfl
    exact ⟨[], by simp⟩
  | PyVal.list xs, p, pv, h => by
    rcases List.mem_singleton.mp h with rfl
    exact ⟨[], by simp⟩

end

mutual

/-- Under safe keys, every leaf path is the prefix plus a nonempty list of
safe components. -/
theorem mem_leafPaths_safe :
    ∀ (d : List (String × PyVal)) (pref : List String)
      (pv : List String × PyVal), safeDictB d = true → pv ∈ leafPaths d pref →
      ∃ suffix, pv.1 = pref ++ suffix ∧ suffix ≠ [] ∧
        ∀ k ∈ suffix, safeKeyB k = true
  | [], _, pv, _, h => absurd h (List.not_mem_nil pv)
  | (k, v) :: rest, pref, pv, hsafe, h => by
    obtain ⟨hk, hnd, hv, hrest⟩ := safeDict_cons hsafe
    rw [show leafPaths ((k, v) :: rest) pref
        = leafPathsEntry v (pref ++ [k]) ++ leafPaths rest pref from rfl] at h
    rcases List.mem_append.mp h with h1 | h1
    · obtain ⟨suffix, heq, hall⟩ :=
        mem_leafPathsEntry_safe v (pref ++ [k]) pv hv h1
      refine ⟨k :: suffix, ?_, List.cons_ne_nil _ _, ?_⟩
      · rw [heq]
        simp
      · intro k2 hk2
        rcases List.mem_cons.mp hk2 with h2 | h2
        · rw [h2]
          exact hk
        · exact hall k2 h2
    · exact mem_leafPaths_safe rest pref pv hrest h1

/-- Under a safe value, every leaf path is the value's path plus safe
components. -/
theorem mem_leafPathsEntry_safe :
    ∀ (v : PyVal) (p : List String) (pv : List String × PyVal),
      safeValB v = true → pv ∈ leafPathsEntry v p →
      ∃ suffix, pv.1 = p ++ suffix ∧ ∀ k ∈ suffix, safeKeyB k = true
  | PyVal.dict sub, p, pv, hsafe, h => by
    obtain ⟨suffix, heq, _, hall⟩ := mem_leafPaths_safe sub p pv hsafe h
    exact ⟨suffix, heq, hall⟩
  | PyVal.none, p, pv, _, h => by
    rcases List.mem_singleton.mp h with rfl
    exact ⟨[], by simp, by intro k hk; exact absurd hk (List.not_mem_nil k)⟩
  | PyVal.bool b, p, pv, _, h => by
    rcases List.mem_singleton.mp h with rfl
    exact ⟨[], by simp, by intro k hk; exact absurd hk (List.not_mem_nil k)⟩
  | PyVal.int n, p, pv, _, h => by
    rcases List.mem_singleton.mp h with rfl
    exact ⟨[], by simp, by intro k hk; exact absurd hk (List.not_mem_nil k)⟩
  | PyVal.str s, p, pv, _, h => by
    rcases List.mem_singleton.mp h with rfl
    exact ⟨[], by simp, by intro k hk; exact absurd hk (List.not_mem_nil k)⟩
  | PyVal.list xs, p, pv, _, h => by
    rcases List.mem_singleton.mp h with rfl
    exact ⟨[], by simp, by intro k hk; exact absurd hk (List.not_mem_nil k)⟩

end

/-- `any (· == k)` false means `k` is not among the keys. -/
theorem not_mem_keys_of_any_false {rest : List (String × PyVal)} {k : String}
    (h : rest.any (fun e => e.1 == k) = false) : k ∉ rest.map Prod.fst := by
  intro hc
  obtain ⟨e, he, hfst⟩ := List.mem_map.mp hc
  have h2 : rest.any (fun e => e.1 == k) = true :=
    List.any_eq_true.mpr ⟨e, he, by simp [hfst]⟩
  rw [h] at h2
  exact Bool.noConfusion h2

mutual

/-- Under safe keys the leaf paths are pairwise distinct. -/
theorem nodup_leafPaths :
    ∀ (d : List (String × PyVal)) (pref : List String), safeDictB d = true →
      ((leafPaths d pref).map Prod.fst).Nodup
  | [], _, _ => List.nodup_nil
  | (k, v) :: rest, pref, hsafe => by
    obtain ⟨hk, hnd, hv, hrest⟩ := safeDict_cons hsafe
    rw [show leafPaths ((k, v) :: rest) pref
        = leafPathsEntry v (pref ++ [k]) ++ leafPaths rest pref from rfl]
    rw [List.map_append]
    refine List.nodup_append.mpr
      ⟨nodup_leafPathsEntry v (pref ++ [k]) hv,
       nodup_leafPaths rest pref hrest, ?_⟩
    intro a ha hb
    obtain ⟨pva, hpva, hfa⟩ := List.mem_map.mp ha
    obtain ⟨pvb, hpvb, hfb⟩ := List.mem_map.mp hb
    obtain ⟨qa, hqa⟩ := mem_leafPathsEntry_structure v (pref ++ [k]) pva hpva
    obtain ⟨kb, qb, hqb, hkb⟩ := mem_leafPaths_structure rest pref pvb hpvb
    have hone : a = pref ++ k :: qa := by
      rw [← hfa, hqa]
      simp
    have htwo : a = pref ++ kb :: qb := by
      rw [← hfb, hqb]
    have hthree : k :: qa = kb :: qb :=
      List.append_cancel_left (hone.symm.trans htwo)
    have hkkb : k = kb := (List.cons.injEq _ _ _ _).mp hthree |>.1
    apply not_mem_keys_of_any_false hnd
    rw [hkkb]
    exact hkb

/-- Under a safe value the leaf paths are pairwise distinct. -/
theorem nodup_leafPathsEntry :
    ∀ (v : PyVal) (p : List String), safeValB v = true →
      ((leafPathsEntry v p).map Prod.fst).Nodup
  | PyVal.dict sub, p, hsafe => nodup_leafPaths sub p hsafe
  | PyVal.none, p, _ => List.nodup_singleton p
  | PyVal.bool _, p, _ => List.nodup_singleton p
  | PyVal.int _, p, _ => List.nodup_singleton p
  | PyVal.str _, p, _ => List.nodup_singleton p
  | PyVal.list _, p, _ => List.nodup_singleton p

end

/-- `dict(items)` leaves a duplicate-free item list unchanged. -/
theorem foldl_dictInsert_nodup :
    ∀ (items acc : List (String × PyVal)),
      ((acc ++ items).map Prod.fst).Nodup →
      items.foldl (fun a e => dictInsert a e.1 e.2) acc = acc ++ items := by
  intro items
  induction items with
  | nil =>
    intro acc _
    simp
  | cons e rest ih =>
    intro acc hnd
    obtain ⟨k, v⟩ := e
    rw [List.foldl_cons]
    have hkacc : k ∉ acc.map Prod.fst := by
      intro hc
      rw [List.map_append] at hnd
      rcases List.nodup_append.mp hnd with ⟨_, _, hdisj⟩
      exact hdisj hc (by simp)
    have hany : acc.any (fun e0 => e0.1 = k) = false := by
      cases hA : acc.any (fun e0 => e0.1 = k)
      · rfl
      · exfalso
        obtain ⟨e0, he0, heq⟩ := List.any_eq_true.mp hA
        exact hkacc (List.mem_map.mpr ⟨e0, he0, by simpa using heq⟩)
    have hins : dictInsert acc k v = acc ++ [(k, v)] := by
      unfold dictInsert
      rw [if_neg (by simp [hany])]
    have hproj : dictInsert acc (k, v).1 (k, v).2 = acc ++ [(k, v)] := hins
    rw [hproj]
    rw [ih (acc ++ [(k, v)]) (by simpa using hnd)]
    simp

/-- `dictOfItems` on a duplicate-free item list is the identity. -/
theorem dictOfItems_self (items : List (String × PyVal))
    (h : (items.map Prod.fst).Nodup) : dictOfItems items = items := by
  unfold dictOfItems
  have h2 := foldl_dictInsert_nodup items [] (by simpa using h)
  simpa using h2

/-- Every leaf path at the root is a nonempty list of safe components. -/
theorem leaf_root_path_safe {d : List (String × PyVal)}
    (h : safeDictB d = true) :
    ∀ x ∈ (leafPaths d []).map Prod.fst,
      x ≠ [] ∧ ∀ k ∈ x, safeKeyB k = true := by
  intro x hx
  obtain ⟨pv, hpv, hfst⟩ := List.mem_map.mp hx
  obtain ⟨suffix, heq, hne, hall⟩ := mem_leafPaths_safe d [] pv h hpv
  rw [List.nil_append] at heq
  rw [← hfst, heq]
  exact ⟨hne, hall⟩

/-- C9 counterexample: for the input `{"a": {"b": 1}, "a__b": 2}` (whose
top-level key contains the separator), the flat mapping has 1 key while the
input has 2 leaf values — the flat-key count does not equal the leaf
count. -/
theorem C9_counterexample :
    ¬ ((flatten dexCollide).length = (leafPaths dexCollide []).length) := by
  intro h
  have h' : (1 : Nat) = 2 := h
  exact absurd h' (by decide)

/-- C9 amended: for nested inputs whose dicts have pairwise distinct keys
at every level and whose keys are separator-safe (nonempty, containing no
`__`, not ending in `_`), `flatten` is exactly the leaf list with
`__`-joined paths as keys: the key count equals the leaf count, splitting
any flat key on `__` reconstructs the leaf's nesting path, list values are
stored as their `str(...)` text and all other scalar values pass through
unchanged (`convLeaf`). -/
theorem C9_amended_flatten (d : List (String × PyVal))
    (h : safeDictB d = true) :
    flatten d = (leafPaths d []).map (fun pv => (joinPath pv.1, convLeaf pv.2)) ∧
    (flatten d).length = (leafPaths d []).length ∧
    ∀ pv ∈ leafPaths d [], splitSep (joinPath pv.1) = pv.1 := by
  have hitems : flattenItems d ("") ("__") =
      (leafPaths d []).map (fun pv => (joinPath pv.1, convLeaf pv.2)) :=
    flattenItems_leaves d [] h (Or.inl rfl)
  have hsplit : ∀ pv ∈ leafPaths d [], splitSep (joinPath pv.1) = pv.1 := by
    intro pv hpv
    have hx := leaf_root_path_safe h pv.1 (List.mem_map.mpr ⟨pv, hpv, rfl⟩)
    exact splitSep_joinPath pv.1 hx.2 hx.1
  have hnodupkeys : ((leafPaths d []).map (fun pv => joinPath pv.1)).Nodup := by
    have hcomp : (leafPaths d []).map (fun pv => joinPath pv.1)
        = ((leafPaths d []).map Prod.fst).map joinPath := by
      rw [List.map_map]
      rfl
    rw [hcomp]
    apply List.Nodup.map_on ?_ (nodup_leafPaths d [] h)
    intro x hx y hy hxy
    have hxs := leaf_root_path_safe h x hx
    have hys := leaf_root_path_safe h y hy
    rw [← splitSep_joinPath x hxs.2 hxs.1, hxy,
      splitSep_joinPath y hys.2 hys.1]
  have hflat : flatten d =
      (leafPaths d []).map (fun pv => (joinPath pv.1, convLeaf pv.2)) := by
    unfold flatten
    rw [hitems]
    apply dictOfItems_self
    have hcomp2 : ((leafPaths d []).map
          (fun pv => (joinPath pv.1, convLeaf pv.2))).map Prod.fst
        = (leafPaths d []).map (fun pv => joinPath pv.1) := by
      rw [List.map_map]
      rfl
    rw [hcomp2]
    exact hnodupkeys
  refine ⟨hflat, ?_, hsplit⟩
  rw [hflat, List.length_map]

/-- C9 witness: the amended claim evaluated on the safe input
`{"a": {"b": 1}, "c": [2, "z"]}`. -/
theorem C9_witness :
    safeDictB dSafe = true ∧
    (flatten dSafe =
      (leafPaths dSafe []).map (fun pv => (joinPath pv.1, convLeaf pv.2)) ∧
    (flatten dSafe).length = (leafPaths dSafe []).length ∧
    ∀ pv ∈ leafPaths dSafe [], splitSep (joinPath pv.1) = pv.1) :=
  ⟨by decide, C9_amended_flatten dSafe (by decide)⟩
